import Mathlib

/-
Verification of the jsip image-processing core (Matrix / kernels / Imager)
against its specification.

Shallow embedding conventions:
  * JS numbers are modelled as exact rationals (ℚ).  The claims settled here
    do not depend on floating-point rounding; where JS division by zero would
    produce Infinity/NaN the claims either exclude that case by hypothesis or
    do not observe the affected values.
  * A `Matrix` is rows × cols × chls with a total data function; the source
    stores a scalar per cell when `chls = 1` and an array per cell otherwise.
    Two-argument (whole-cell) access on a 1-channel matrix reads/writes the
    scalar, modelled as channel 0.  Values of `data` outside the bounds are
    junk: every observation in the source is bounds-checked, and in-place
    loops only touch in-range indices, so the junk is unobservable.
  * JS `throw` is modelled with `Except JsError`; each `JsError` constructor
    stands for the error class the source throws (the source's `throw 'X...'`
    string throws get their own constructors).
  * Loops become folds (`List.foldlM` over the exact index ranges the source
    iterates, in the source's order).  Mutation of `this` becomes explicit
    state passing; the source's reference-aliasing `copy` is value copying,
    faithful here because no aliased buffer is written after the copy in any
    modelled flow.
-/

namespace Jsip

/-- The error classes thrown by the source: `TypeError`, `RangeError`,
`ReferenceError` (reading an undefined bare identifier), plain `Error`,
and the string throws of `convolution`, `dodge`, `burn`, `light`. -/
inductive JsError where
  | typeError
  | rangeError
  | referenceError
  | genericError
  | convolutionError
  | dodgeError
  | burnError
  | lightError
deriving DecidableEq

/-- The `Matrix` class of `Matrix.js`: `#rows`, `#cols`, `#chls` and the
dense store `#m`, modelled as a total function (out-of-range values are
unobservable junk, see the header). -/
structure Matrix where
  rows : Nat
  cols : Nat
  chls : Nat
  data : Nat → Nat → Nat → ℚ

/-- Point update of a data store at one (row, col, channel) position. -/
def upd (d : Nat → Nat → Nat → ℚ) (p : Nat × Nat × Nat) (v : ℚ) :
    Nat → Nat → Nat → ℚ :=
  fun i j k => if i = p.1 ∧ j = p.2.1 ∧ k = p.2.2 then v else d i j k

/-- Whole-cell update of a data store at one (row, col) cell. -/
def updCell (d : Nat → Nat → Nat → ℚ) (p : Nat × Nat) (cell : Nat → ℚ) :
    Nat → Nat → Nat → ℚ :=
  fun i j k => if i = p.1 ∧ j = p.2 then cell k else d i j k

/-- `Matrix.get(i, j, k)` (three-argument form, Matrix.js line 48): throws
`RangeError` when any index is out of range, else reads the channel value.
(Negative indices cannot arise with `Nat`.) -/
def Matrix.get3 (A : Matrix) (i j k : Nat) : Except JsError ℚ :=
  if A.rows ≤ i ∨ A.cols ≤ j ∨ A.chls ≤ k then .error .rangeError
  else .ok (A.data i j k)

/-- `Matrix.set(i, j, v, k)` (four-argument form, Matrix.js line 107). -/
def Matrix.set3 (A : Matrix) (i j k : Nat) (v : ℚ) : Except JsError Matrix :=
  if A.rows ≤ i ∨ A.cols ≤ j ∨ A.chls ≤ k then .error .rangeError
  else .ok ⟨A.rows, A.cols, A.chls, upd A.data (i, j, k) v⟩

/-- `Matrix.get(i, j)` (two-argument form): bounds-checks the row and column
only and returns the whole cell (the per-channel function). -/
def Matrix.getCell (A : Matrix) (i j : Nat) : Except JsError (Nat → ℚ) :=
  if A.rows ≤ i ∨ A.cols ≤ j then .error .rangeError
  else .ok (A.data i j)

/-- `Matrix.set(i, j, v)` (three-argument form) with a whole cell as value.
The source's out-of-range branch (Matrix.js line 113) is `throw new new
RangeError(...)`: the outer `new` is applied to the constructed RangeError
instance, which is not a constructor, so the branch actually raises a
TypeError. -/
def Matrix.setCell (A : Matrix) (i j : Nat) (cell : Nat → ℚ) :
    Except JsError Matrix :=
  if A.rows ≤ i ∨ A.cols ≤ j then .error .typeError
  else .ok ⟨A.rows, A.cols, A.chls, updCell A.data (i, j) cell⟩

/-- Two-argument `get` where the source uses the cell as a scalar (only ever
done on 1-channel matrices, whose cells are scalars): channel 0. -/
def Matrix.get2 (A : Matrix) (i j : Nat) : Except JsError ℚ :=
  (A.getCell i j).map fun cell => cell 0

/-- Two-argument `set` with a scalar value (1-channel cells). -/
def Matrix.set2 (A : Matrix) (i j : Nat) (v : ℚ) : Except JsError Matrix :=
  A.setCell i j fun _ => v

/-- The (row, col) pairs visited by `Matrix.apply` (Matrix.js line 638):
`i` from 0 to rows-1, inner `j` from 0 to cols-1. -/
def cellIdx (rows cols : Nat) : List (Nat × Nat) :=
  (List.range rows).flatMap fun i => (List.range cols).map fun j => (i, j)

/-- The (row, col, channel) triples visited by a cell loop with an inner
channel loop bounded by `kBound`: `applyAllPixels` uses `kBound = 3`
(line 611), `applyAll` uses `kBound = chls` when `chls > 1` (line 622). -/
def tripleIdx (rows cols kBound : Nat) : List (Nat × Nat × Nat) :=
  (cellIdx rows cols).flatMap fun p => (List.range kBound).map fun k => (p.1, p.2, k)

/-- The index triples of `Matrix.applyAll` (Matrix.js line 622): all channels
when `chls > 1`, else the scalar cell, modelled as channel 0. -/
def applyAllIdx (A : Matrix) : List (Nat × Nat × Nat) :=
  if 1 < A.chls then tripleIdx A.rows A.cols A.chls else tripleIdx A.rows A.cols 1

theorem mem_cellIdx {r c : Nat} {p : Nat × Nat} :
    p ∈ cellIdx r c ↔ p.1 < r ∧ p.2 < c := by
  unfold cellIdx
  constructor
  · intro h
    simp only [List.mem_flatMap, List.mem_map, List.mem_range] at h
    obtain ⟨i, hi, j, hj, rfl⟩ := h
    exact ⟨hi, hj⟩
  · intro ⟨h1, h2⟩
    simp only [List.mem_flatMap, List.mem_map, List.mem_range]
    exact ⟨p.1, h1, p.2, h2, rfl⟩

theorem cellIdx_nodup (r c : Nat) : (cellIdx r c).Nodup := by
  unfold cellIdx
  apply List.nodup_flatMap.2
  refine ⟨fun i _ => (List.nodup_range c).map fun x y h => ?_, ?_⟩
  · exact congrArg Prod.snd h
  · apply List.Pairwise.imp ?_ (List.nodup_range r)
    intro a b hab
    intro x hx hx'
    simp only [List.mem_map, List.mem_range] at hx hx'
    obtain ⟨j, _, rfl⟩ := hx
    obtain ⟨j', _, h⟩ := hx'
    exact hab (congrArg Prod.fst h).symm

theorem mem_tripleIdx {r c b : Nat} {t : Nat × Nat × Nat} :
    t ∈ tripleIdx r c b ↔ t.1 < r ∧ t.2.1 < c ∧ t.2.2 < b := by
  unfold tripleIdx
  constructor
  · intro h
    simp only [List.mem_flatMap, List.mem_map, List.mem_range] at h
    obtain ⟨p, hp, k, hk, rfl⟩ := h
    exact ⟨(mem_cellIdx.1 hp).1, (mem_cellIdx.1 hp).2, hk⟩
  · intro ⟨h1, h2, h3⟩
    simp only [List.mem_flatMap, List.mem_map, List.mem_range]
    exact ⟨(t.1, t.2.1), mem_cellIdx.2 ⟨h1, h2⟩, t.2.2, h3, rfl⟩

theorem tripleIdx_nodup (r c b : Nat) : (tripleIdx r c b).Nodup := by
  unfold tripleIdx
  apply List.nodup_flatMap.2
  refine ⟨fun p _ => (List.nodup_range b).map fun x y h => ?_, ?_⟩
  · exact congrArg (fun q : Nat × Nat × Nat => q.2.2) h
  · apply List.Pairwise.imp ?_ (cellIdx_nodup r c)
    intro a b hab
    intro x hx hx'
    simp only [List.mem_map, List.mem_range] at hx hx'
    obtain ⟨k, _, rfl⟩ := hx
    obtain ⟨k', _, h⟩ := hx'
    apply hab
    have h1 := congrArg Prod.fst h
    have h2 := congrArg (fun q : Nat × Nat × Nat => q.2.1) h
    simp at h1 h2
    exact Prod.ext h1.symm h2.symm

/-- Folding a step that always fails (first iteration throws). -/
theorem foldlM_allError {α : Type} (step : Matrix → α → Except JsError Matrix)
    (e : JsError) (L : List α) (hne : L ≠ [])
    (h : ∀ M t, t ∈ L → step M t = .error e) (A : Matrix) :
    L.foldlM step A = .error e := by
  cases L with
  | nil => exact absurd rfl hne
  | cons t ts =>
    rw [List.foldlM_cons, h A t (List.mem_cons_self ..)]
    rfl

/-- Master lemma for in-place loops that write each position of a duplicate-free
index list once.  `step M t` must succeed and update exactly position `t` to
`F M.data t`, and `F · t` may read only the positions `Rd t`, which no other
step of the loop writes.  The fold then succeeds, positions in `L` hold
`F` of the original data and every other position is untouched. -/
theorem foldlM_writeOnce {r c n : Nat}
    (step : Matrix → Nat × Nat × Nat → Except JsError Matrix)
    (F : (Nat → Nat → Nat → ℚ) → Nat × Nat × Nat → ℚ)
    (Rd : Nat × Nat × Nat → List (Nat × Nat × Nat)) :
    ∀ L : List (Nat × Nat × Nat), L.Nodup →
    (∀ t ∈ L, ∀ p ∈ L, t ≠ p → t ∉ Rd p) →
    (∀ d d' t, t ∈ L →
      (∀ q ∈ Rd t, d q.1 q.2.1 q.2.2 = d' q.1 q.2.1 q.2.2) → F d t = F d' t) →
    (∀ (M : Matrix) t, t ∈ L → M.rows = r → M.cols = c → M.chls = n →
      step M t = .ok ⟨r, c, n, upd M.data t (F M.data t)⟩) →
    ∀ A : Matrix, A.rows = r → A.cols = c → A.chls = n →
    ∃ d', L.foldlM step A = .ok ⟨r, c, n, d'⟩ ∧
      (∀ t ∈ L, d' t.1 t.2.1 t.2.2 = F A.data t) ∧
      (∀ p : Nat × Nat × Nat, p ∉ L → d' p.1 p.2.1 p.2.2 = A.data p.1 p.2.1 p.2.2) := by
  intro L
  induction L with
  | nil =>
    intro _ _ _ _ A hr hc hch
    refine ⟨A.data, ?_, by simp, fun p _ => rfl⟩
    cases A
    subst hr hc hch
    rfl
  | cons t ts ih =>
    intro hnd hsep hF hstep A hr hc hch
    have htmem : t ∈ t :: ts := List.mem_cons_self ..
    have hstep0 := hstep A t htmem hr hc hch
    have hts : ∀ p ∈ ts, p ∈ t :: ts := fun p hp => List.mem_cons_of_mem _ hp
    have htnotts : t ∉ ts := (List.nodup_cons.1 hnd).1
    obtain ⟨d', hfold, hin, hout⟩ :=
      ih (List.nodup_cons.1 hnd).2
        (fun a ha p hp hne => hsep a (hts a ha) p (hts p hp) hne)
        (fun d d' a ha hagree => hF d d' a (hts a ha) hagree)
        (fun M a ha h1 h2 h3 => hstep M a (hts a ha) h1 h2 h3)
        ⟨r, c, n, upd A.data t (F A.data t)⟩ rfl rfl rfl
    refine ⟨d', ?_, ?_, ?_⟩
    · rw [List.foldlM_cons, hstep0]
      exact hfold
    · intro p hp
      rcases List.mem_cons.1 hp with rfl | hpts
      · rw [hout p htnotts]
        simp [upd]
      · rw [hin p hpts]
        apply hF _ _ p (hts p hpts)
        intro q hq
        have hqnet : q ≠ t := by
          intro h
          subst h
          exact hsep q htmem p (hts p hpts) (fun h => htnotts (h ▸ hpts)) hq
        simp only [upd]
        rw [if_neg]
        intro ⟨h1, h2, h3⟩
        exact hqnet (Prod.ext h1 (Prod.ext h2 h3))
    · intro p hp
      have hp1 : p ∉ ts := fun h => hp (hts p h)
      have hp2 : p ≠ t := fun h => hp (h ▸ htmem)
      rw [hout p hp1]
      simp only [upd]
      rw [if_neg]
      intro ⟨h1, h2, h3⟩
      exact hp2 (Prod.ext h1 (Prod.ext h2 h3))

/-- Master lemma for in-place loops that write whole cells: `step M t`
updates exactly the cell `wr t` to the per-channel values `F M.data t`,
reading only the cells `Rd t`, which no other step writes. -/
theorem foldlM_cellwise {ι : Type} {r c n : Nat}
    (step : Matrix → ι → Except JsError Matrix)
    (wr : ι → Nat × Nat)
    (F : (Nat → Nat → Nat → ℚ) → ι → Nat → ℚ)
    (Rd : ι → List (Nat × Nat)) :
    ∀ L : List ι, L.Nodup →
    (∀ t ∈ L, ∀ p ∈ L, t ≠ p → wr t ∉ Rd p) →
    (∀ d d' t, t ∈ L →
      (∀ q ∈ Rd t, ∀ k, d q.1 q.2 k = d' q.1 q.2 k) → ∀ k, F d t k = F d' t k) →
    (∀ (M : Matrix) t, t ∈ L → M.rows = r → M.cols = c → M.chls = n →
      step M t = .ok ⟨r, c, n, updCell M.data (wr t) (F M.data t)⟩) →
    ∀ A : Matrix, A.rows = r → A.cols = c → A.chls = n →
    ∃ d', L.foldlM step A = .ok ⟨r, c, n, d'⟩ ∧
      (∀ t ∈ L, (∀ p ∈ L, wr p = wr t → p = t) →
        ∀ k, d' (wr t).1 (wr t).2 k = F A.data t k) ∧
      (∀ i j, (∀ t ∈ L, wr t ≠ (i, j)) → ∀ k, d' i j k = A.data i j k) := by
  intro L
  induction L with
  | nil =>
    intro _ _ _ _ A hr hc hch
    refine ⟨A.data, ?_, by simp, fun i j _ k => rfl⟩
    cases A
    subst hr hc hch
    rfl
  | cons t ts ih =>
    intro hnd hsep hF hstep A hr hc hch
    have htmem : t ∈ t :: ts := List.mem_cons_self ..
    have hstep0 := hstep A t htmem hr hc hch
    have hts : ∀ p ∈ ts, p ∈ t :: ts := fun p hp => List.mem_cons_of_mem _ hp
    have htnotts : t ∉ ts := (List.nodup_cons.1 hnd).1
    obtain ⟨d', hfold, hin, hout⟩ :=
      ih (List.nodup_cons.1 hnd).2
        (fun a ha p hp hne => hsep a (hts a ha) p (hts p hp) hne)
        (fun d d' a ha hagree => hF d d' a (hts a ha) hagree)
        (fun M a ha h1 h2 h3 => hstep M a (hts a ha) h1 h2 h3)
        ⟨r, c, n, updCell A.data (wr t) (F A.data t)⟩ rfl rfl rfl
    refine ⟨d', ?_, ?_, ?_⟩
    · rw [List.foldlM_cons, hstep0]
      exact hfold
    · intro p hp hone k
      rcases List.mem_cons.1 hp with hpt | hpts
      · subst hpt
        have hstill := hout (wr p).1 (wr p).2
          (fun a ha hwa => htnotts ((hone a (hts a ha) (by simpa using hwa)) ▸ ha)) k
        rw [hstill]
        simp [updCell]
      · rw [hin p hpts (fun a ha hwa => hone a (hts a ha) hwa) k]
        apply hF _ _ p (hts p hpts)
        intro q hq k'
        have hqne : wr t ≠ q := by
          intro h
          exact hsep t htmem p (hts p hpts) (fun h2 => htnotts (h2 ▸ hpts)) (h ▸ hq)
        simp only [updCell]
        rw [if_neg]
        intro ⟨h1, h2⟩
        exact hqne (Prod.ext h1.symm h2.symm)
    · intro i j hne k
      rw [hout i j (fun a ha => hne a (hts a ha)) k]
      simp only [updCell]
      rw [if_neg]
      intro ⟨h1, h2⟩
      exact hne t htmem (Prod.ext h1.symm h2.symm)

/-- `Matrix.generate` at the `Nat`-dimension calls the source itself makes
(`zeros`, `ones`, the `new Matrix(r, c, ch)` constructor): for a `Nat`
argument the `!parseInt(x)` validation fails exactly when the dimension is 0
(TypeError), the `Array(x)` lengths are always valid, and the store is fully
filled with `v` (Matrix.js line 246). -/
def generateNat (rows cols chls : Nat) (v : ℚ) : Except JsError Matrix :=
  if rows = 0 ∨ cols = 0 ∨ chls = 0 then .error .typeError
  else .ok ⟨rows, cols, chls, fun _ _ _ => v⟩

/-- `Matrix.zeros(rows, cols, chls)` (Matrix.js line 376). -/
def zeros (rows cols chls : Nat) : Except JsError Matrix :=
  generateNat rows cols chls 0

/-- JS `parseInt` applied to a (finite, moderate) number: truncation toward
zero. -/
def jsTrunc (q : ℚ) : Int := q.num.tdiv q.den

/-- The result of the general `Matrix.generate(rows, cols, chls, v)`
(Matrix.js line 246) over arbitrary numeric arguments: the stored dimensions
are the `parseInt` truncations (possibly zero or negative when validation
lets them through), the store is constantly `v`. -/
structure GenMatrix where
  rows : Int
  cols : Int
  chls : Int
  data : Nat → Nat → Nat → ℚ

/-- `Matrix.generate(rows, cols, chls, v)` (Matrix.js line 246) over
arbitrary numeric arguments.  Control flow of the source: the
`!parseInt(...)` validation throws TypeError when any argument truncates to
0; then `Array(rows)` throws RangeError unless `rows` is a non-negative
integer (given validation passed, that means a positive integer), likewise
`Array(cols)` inside the row loop (always reached, since validation forces
`rows ≥ 1` at that point) and `Array(chls)` inside the cell loop, which runs
only when `chls > 1`.  A negative integer `chls` reaches neither check and
the build completes with scalar cells. -/
def generate (rows cols chls v : ℚ) : Except JsError GenMatrix :=
  if jsTrunc rows = 0 ∨ jsTrunc cols = 0 ∨ jsTrunc chls = 0 then .error .typeError
  else if ¬(0 ≤ rows ∧ rows.den = 1) then .error .rangeError
  else if ¬(0 ≤ cols ∧ cols.den = 1) then .error .rangeError
  else if 1 < chls ∧ ¬(0 ≤ chls ∧ chls.den = 1) then .error .rangeError
  else .ok ⟨jsTrunc rows, jsTrunc cols, jsTrunc chls, fun _ _ _ => v⟩

/-- `Matrix.fillAlpha(a)` (Matrix.js line 216): `apply` over all cells with
`set(i, j, a, 3)`. -/
def Matrix.fillAlpha (A : Matrix) (a : ℚ) : Except JsError Matrix :=
  (cellIdx A.rows A.cols).foldlM (fun M p => M.set3 p.1 p.2 3 a) A

/-- `Matrix.copy(to, offset)` (Matrix.js line 414): whole-cell copies of the
receiver into `to` at the offset.  The source copies cell references; value
copy is faithful here because no aliased buffer is written after a copy in
any modelled flow. -/
def Matrix.copy (A : Matrix) (tgt : Matrix) (oi oj : Nat) : Except JsError Matrix :=
  (cellIdx A.rows A.cols).foldlM
    (fun (M : Matrix) p => do
      let cell ← A.getCell p.1 p.2
      M.setCell (p.1 + oi) (p.2 + oj) cell) tgt

/-- `Matrix.extrude(chls)` (Matrix.js line 449).  After the two RangeError
checks, each cell becomes: old channels unchanged, new channels (and, in the
1-channel branch, every channel) holding the old last channel's value;
finally `#chls` is reassigned. -/
def Matrix.extrude (A : Matrix) (chls : Nat) : Except JsError Matrix :=
  if chls ≤ 1 then .error .rangeError
  else if chls < A.chls then .error .rangeError
  else
    ((cellIdx A.rows A.cols).foldlM
      (fun (M : Matrix) p => M.setCell p.1 p.2
        (fun k => if A.chls ≤ k then M.data p.1 p.2 (A.chls - 1) else M.data p.1 p.2 k)) A).map
      fun M => ⟨M.rows, M.cols, chls, M.data⟩

/-- `Matrix.swapCol(j, j2)` (Matrix.js line 569): raw column swap (the source
indexes `#m` directly, without bounds checks). -/
def Matrix.swapCol (A : Matrix) (j j2 : Nat) : Matrix :=
  ⟨A.rows, A.cols, A.chls, fun i' j' k =>
    if j' = j then A.data i' j2 k
    else if j' = j2 then A.data i' j k
    else A.data i' j' k⟩

/-- `Matrix.swapRow(i, i2)` (Matrix.js line 556): raw row swap. -/
def Matrix.swapRow (A : Matrix) (i i2 : Nat) : Matrix :=
  ⟨A.rows, A.cols, A.chls, fun i' j' k =>
    if i' = i then A.data i2 j' k
    else if i' = i2 then A.data i j' k
    else A.data i' j' k⟩

/-- `Matrix.flipX` (Matrix.js line 581): swaps column pairs for
`j < Math.floor(cols) / 2` — real division, so `⌈cols / 2⌉` iterations. -/
def Matrix.flipX (A : Matrix) : Matrix :=
  (List.range ((A.cols + 1) / 2)).foldl (fun M j => M.swapCol j (M.cols - j - 1)) A

/-- `Matrix.flipY` (Matrix.js line 591). -/
def Matrix.flipY (A : Matrix) : Matrix :=
  (List.range ((A.rows + 1) / 2)).foldl (fun M i => M.swapRow i (M.rows - i - 1)) A

/-- `Matrix.flipXY` (Matrix.js line 601). -/
def Matrix.flipXY (A : Matrix) : Matrix := A.flipX.flipY

/-- `Matrix.div(v)` (Matrix.js line 688): RangeError on a zero divisor, else
in-place division at every `applyAll` index (raw accesses, no throws). -/
def Matrix.div (A : Matrix) (v : ℚ) : Except JsError Matrix :=
  if v = 0 then .error .rangeError
  else (applyAllIdx A).foldlM
    (fun M t => .ok ⟨M.rows, M.cols, M.chls, upd M.data t (M.data t.1 t.2.1 t.2.2 / v)⟩) A

/-- `Matrix.load` (Matrix.js line 271) for the 2-D literals the kernel
factory passes to `new Matrix([...])`: rows = length, cols = first row's
length, 1 channel (the entries are scalars).  Every literal in the factory
is nonempty, so the TypeError branch for a non-2D argument is dead and the
model is total; out-of-range lookups are junk. -/
def load2 (m : List (List ℚ)) : Matrix :=
  ⟨m.length, (m.headD []).length, 1, fun i j _ => (m.getD i []).getD j 0⟩

/-- `clip(val, lo, hi)` (Imager.js line 599). -/
def clip (val lo hi : ℚ) : ℚ :=
  if val < lo then lo else if hi < val then hi else val

/-- `Imager.normalize(A)` (Imager.js line 116): clips every `applyAll` index
into [0, 1]. -/
def normalize (A : Matrix) : Except JsError Matrix :=
  (applyAllIdx A).foldlM
    (fun M t => do
      let x ← M.get3 t.1 t.2.1 t.2.2
      M.set3 t.1 t.2.1 t.2.2 (clip x 0 1)) A

/-- `Imager.convolution(A, w)` (Imager.js line 88): odd-size check, channel
reconciliation (`extrude` broadcast of 1-channel kernels, the 4-channel
image / 3-channel kernel exception), 180° kernel flip, alpha-prefilled
accumulator, zero-padded scratch buffer, windowed accumulation over color
channels (`k < chls && k < 3`), clipping, and copy-back into `A`. -/
def convolution (A w0 : Matrix) : Except JsError Matrix := do
  if w0.rows % 2 = 0 ∨ w0.cols % 2 = 0 then .error .convolutionError
  else
    let w1 ← if w0.chls = 1 ∧ 1 < A.chls then w0.extrude A.chls else .ok w0
    if ¬(w1.chls = A.chls) ∧ ¬(A.chls = 4 ∧ w1.chls = 3) then .error .convolutionError
    else
      let w := w1.flipXY
      let accum0 ← zeros A.rows A.cols A.chls
      let accum1 ← accum0.fillAlpha 1
      let pad0 ← zeros (A.rows + w.rows / 2 * 2) (A.cols + w.cols / 2 * 2) A.chls
      let pad ← A.copy pad0 (w.rows / 2) (w.cols / 2)
      let accum2 ← (tripleIdx accum1.rows accum1.cols (min accum1.chls 3)).foldlM
        (fun M t => (cellIdx w.rows w.cols).foldlM
          (fun M q => do
            let x ← M.get3 t.1 t.2.1 t.2.2
            let pv ← pad.get3 (t.1 + q.1) (t.2.1 + q.2) t.2.2
            let wv ← w.get3 q.1 q.2 t.2.2
            M.set3 t.1 t.2.1 t.2.2 (x + pv * wv)) M) accum1
      let accum3 ← normalize accum2
      accum3.copy A 0 0

/-- `Imager.crop(A, x1, y1, x2, y2)` (Imager.js line 134): a fresh
`|x2−x1| × |y2−y1| × chls` matrix filled from `A` at the min-corner
offset. -/
def crop (A : Matrix) (x1 y1 x2 y2 : Nat) : Except JsError Matrix := do
  let c0 ← generateNat (max x1 x2 - min x1 x2) (max y1 y2 - min y1 y2) A.chls 0
  (cellIdx c0.rows c0.cols).foldlM
    (fun (M : Matrix) p => do
      let cell ← A.getCell (p.1 + min x1 x2) (p.2 + min y1 y2)
      M.setCell p.1 p.2 cell) c0

/-- The shape shared by every simple blend operator of Imager.js:
`A.applyAllPixels` with `A.set(i, j, f(A.get(i, j, k), B.get(i, j, k)), k)`. -/
def pixelBlend (f : ℚ → ℚ → ℚ) (A B : Matrix) : Except JsError Matrix :=
  (tripleIdx A.rows A.cols 3).foldlM
    (fun M t => do
      let a ← M.get3 t.1 t.2.1 t.2.2
      let b ← B.get3 t.1 t.2.1 t.2.2
      M.set3 t.1 t.2.1 t.2.2 (f a b)) A

/-- `Imager.addition(A, B)` (Imager.js line 213). -/
def addition (A B : Matrix) : Except JsError Matrix :=
  pixelBlend (fun a b => a + b) A B

/-- `Imager.subtraction(A, B)` (Imager.js line 226). -/
def subtraction (A B : Matrix) : Except JsError Matrix :=
  pixelBlend (fun a b => a - b) A B

/-- `Imager.multiply(A, B)` (Imager.js line 239). -/
def multiply (A B : Matrix) : Except JsError Matrix :=
  pixelBlend (fun a b => a * b) A B

/-- `Imager.divide(A, B)` (Imager.js line 252).  JS division by a zero
element yields Infinity/NaN without throwing; in ℚ, `x / 0 = 0`.  No claim
settled here observes a value produced by a zero divisor. -/
def divide (A B : Matrix) : Except JsError Matrix :=
  pixelBlend (fun a b => a / b) A B

/-- `Imager.difference(A, B)` (Imager.js line 265): `abs(A + B)` as coded. -/
def difference (A B : Matrix) : Except JsError Matrix :=
  pixelBlend (fun a b => |a + b|) A B

/-- `Imager.screen(A, B)` (Imager.js line 278). -/
def screen (A B : Matrix) : Except JsError Matrix :=
  pixelBlend (fun a b => 1 - (1 - a) * (1 - b)) A B

/-- `Imager.overlay(A, B)` (Imager.js line 291). -/
def overlay (A B : Matrix) : Except JsError Matrix :=
  pixelBlend (fun a b => if a < 1/2 then 2 * a * b else 1 - 2 * (1 - a) * (1 - b)) A B

/-- `Imager.darken(A, B)` (Imager.js line 412). -/
def darken (A B : Matrix) : Except JsError Matrix :=
  pixelBlend (fun a b => min a b) A B

/-- `Imager.lighten(A, B)` (Imager.js line 425). -/
def lighten (A B : Matrix) : Except JsError Matrix :=
  pixelBlend (fun a b => max a b) A B

/-- `Imager.normal(A, B)` (Imager.js line 307): Porter-Duff over, reading
both alphas per color channel and writing only the color channel. -/
def normal (A B : Matrix) : Except JsError Matrix :=
  (tripleIdx A.rows A.cols 3).foldlM
    (fun M t => do
      let aa ← M.get3 t.1 t.2.1 3
      let ba ← B.get3 t.1 t.2.1 3
      let ac ← M.get3 t.1 t.2.1 t.2.2
      let bc ← B.get3 t.1 t.2.1 t.2.2
      M.set3 t.1 t.2.1 t.2.2
        ((ac * aa + bc * ba * (1 - aa)) / (aa + ba * (1 - aa)))) A

/-- `Imager.invert(A)` (Imager.js line 170): per cell, `setPixel` with the
three inverted color reads.  The reads happen first (JS argument
evaluation); `setPixel` (Matrix.js line 153) then throws unless the matrix
has ≥ 3 channels and, given no alpha argument, writes channels 0-2 only. -/
def invert (A : Matrix) : Except JsError Matrix :=
  (cellIdx A.rows A.cols).foldlM
    (fun (M : Matrix) p => do
      let r ← M.get3 p.1 p.2 0
      let g ← M.get3 p.1 p.2 1
      let b ← M.get3 p.1 p.2 2
      if M.chls < 3 then .error .genericError
      else M.setCell p.1 p.2 (fun k =>
        if k = 0 then 1 - r else if k = 1 then 1 - g
        else if k = 2 then 1 - b else M.data p.1 p.2 k)) A

/-- `Matrix.isWhite()` (Matrix.js line 507): false unless 3 or 4 channels,
else true iff every color channel of every pixel equals 1. -/
def Matrix.isWhite (A : Matrix) : Bool :=
  if A.chls ≠ 3 ∧ A.chls ≠ 4 then false
  else (tripleIdx A.rows A.cols 3).all fun t => A.data t.1 t.2.1 t.2.2 == 1

def modeScreen : String := "screen"

def modeColor : String := "color"

def modeLinear : String := "linear"

def modeDivide : String := "divide"

def modeSoft : String := "soft"

def modeHard : String := "hard"

def modeVivid : String := "vivid"

def modeMultiply : String := "multiply"

/-- `Imager.dodge(A, B, type)` (Imager.js line 356), returning the final
states of both operands (the source mutates both in place; callers observe
`A`, and `light` passes the mutated `B` on to `burn`).  The `divide` mode
recurses into the `color` mode unless `B.isWhite()`. -/
def dodge (A B : Matrix) (ty : String) : Except JsError (Matrix × Matrix) :=
  if ty = modeScreen then do
    let A ← invert A
    let B ← invert B
    let A ← multiply A B
    let A ← invert A
    let B ← invert B
    .ok (A, B)
  else if ty = modeColor then do
    let B ← invert B
    let A ← divide A B
    let B ← invert B
    .ok (A, B)
  else if ty = modeLinear then do
    let A ← addition A B
    .ok (A, B)
  else if h : ty = modeDivide then
    if B.isWhite then .ok (A, B) else dodge A B modeColor
  else .error .dodgeError
termination_by (if ty = modeDivide then 1 else 0)
decreasing_by simp_all [modeColor, modeDivide]

/-- `Imager.burn(A, B, type)` (Imager.js line 388), both operands' final
states returned as for `dodge`. -/
def burn (A B : Matrix) (ty : String) : Except JsError (Matrix × Matrix) :=
  if ty = modeMultiply then do
    let A ← multiply A B
    .ok (A, B)
  else if ty = modeColor then do
    let A ← invert A
    let A ← divide A B
    let A ← invert A
    .ok (A, B)
  else if ty = modeLinear then do
    let A ← pixelBlend (fun a b => a + b - 1) A B
    .ok (A, B)
  else .error .burnError

/-- `Imager.light(A, B, type)` (Imager.js line 322).  `Math.sqrt` has no
exact ℚ counterpart; it is taken as a parameter `sqrtQ`, and the properties
proved here hold for every choice of it (in particular the real square
root). -/
def light (sqrtQ : ℚ → ℚ) (A B : Matrix) (ty : String) :
    Except JsError (Matrix × Matrix) :=
  if ty = modeSoft then do
    let A ← pixelBlend
      (fun a b => if a < 1/2 then 2 * a * b + a ^ 2 * (1 - 2 * b)
        else 2 * a * (1 - b) + sqrtQ a * (2 * b - 1)) A B
    .ok (A, B)
  else if ty = modeHard then do
    let A ← pixelBlend
      (fun a b => if a < 1/2 then 2 * a * b else 1 - 2 * (1 - a) * (1 - b)) A B
    .ok (A, B)
  else if ty = modeVivid then do
    let AB ← dodge A B modeColor
    burn AB.1 AB.2 modeColor
  else if ty = modeLinear then do
    let AB ← dodge A B modeLinear
    burn AB.1 AB.2 modeLinear
  else .error .lightError

/-- `Matrix.mmul(B)` (Matrix.js line 746).  The source accumulates
`prod.accum(i, j, this.get(k, j) * B.get(i, k))` over `k < B.cols` into a
`this.cols × B.rows` product and copies it back into the receiver.  The
channel check throws a plain Error; the `cols ≠ rows` check's throw builds
its message by calling `this.getSize()`, whose body (Matrix.js line 95)
reads the undefined bare identifier `chls`, so evaluating that message
raises a ReferenceError before the Error is ever constructed. -/
def Matrix.mmul (A B : Matrix) : Except JsError Matrix := do
  if 1 < A.chls ∨ 1 < B.chls then .error .genericError
  else if A.cols ≠ B.rows then .error .referenceError
  else
    let prod0 ← generateNat A.cols B.rows 1 0
    let prod ← (cellIdx A.rows A.cols).foldlM
      (fun P p => (List.range B.cols).foldlM
        (fun P k => do
          let a ← A.get2 k p.2
          let b ← B.get2 p.1 k
          let old ← P.get2 p.1 p.2
          P.set2 p.1 p.2 (old + a * b)) P) prod0
    prod.copy A 0 0

/-- `kernels.identity` (kernels.js line 64). -/
def identityKernel : Matrix := load2 [[0, 0, 0], [0, 1, 0], [0, 0, 0]]

/-- First factor of `kernels.prewitt` (kernels.js line 114). -/
def prewittFactor1 : Matrix := load2 [[1, 0, -1], [1, 0, -1], [1, 0, -1]]

/-- Second factor of `kernels.prewitt` (kernels.js line 118). -/
def prewittFactor2 : Matrix := load2 [[1, 1, 1], [0, 0, 0], [-1, -1, -1]]

/-- `kernels.prewitt` (kernels.js line 114): the `mmul` of the two fixed
factors. -/
def prewittKernel : Except JsError Matrix := prewittFactor1.mmul prewittFactor2

/-- One iteration of `pascal`'s expansion loop (kernels.js line 155):
adjacent sums, a 1 unshifted in front and a 1 pushed at the back. -/
def pascalStep (ans : List ℚ) : List ℚ :=
  1 :: List.zipWith (· + ·) ans ans.tail ++ [1]

/-- The expansion loop iterated: `pascalLoop m` is `ans` after `m`
iterations starting from `[1, 1]`. -/
def pascalLoop : Nat → List ℚ
  | 0 => [1, 1]
  | m + 1 => pascalStep (pascalLoop m)

/-- `pascal(n)` (kernels.js line 150): `[1]` for n = 1, `[1, 1]` for n = 2,
else the loop runs for `i` from 2 while `i < n`, i.e. `n - 2` times. -/
def pascal (n : Nat) : List ℚ :=
  if n = 1 then [1] else if n = 2 then [1, 1] else pascalLoop (n - 2)

/-- `kernels.gaussianBlur(size)` (kernels.js line 46): the `[1 × n, n × 1]`
pair built from `pascal(size)`, each divided by the sum of the row kernel's
first `size` entries. -/
def gaussianBlur (size : Nat) : Except JsError (Matrix × Matrix) := do
  let row := pascal size
  let w0 := load2 [row]
  let w1 := load2 (row.map fun n => [n])
  let sum ← (List.range size).foldlM (fun s i => do
      let x ← w0.get2 0 i
      .ok (s + x)) (0 : ℚ)
  let w0d ← w0.div sum
  let w1d ← w1.div sum
  .ok (w0d, w1d)

/-- The thrown error of a modelled run, if any (for stating concrete
executions without needing decidable equality of matrices). -/
def errKind {α : Type} : Except JsError α → Option JsError
  | .error e => some e
  | .ok _ => none

/-- Whether a modelled run completed. -/
def isOkE {α : Type} : Except JsError α → Bool
  | .ok _ => true
  | .error _ => false

/-- The value at (i, j, k) of a run's resulting matrix, if it completed. -/
def okData (e : Except JsError Matrix) (i j k : Nat) : Option ℚ :=
  match e with
  | .error _ => none
  | .ok M => some (M.data i j k)

/-- The textbook dense product entry `Σ_k A[i][k]·B[k][j]`, written from the
spec's description of `matMul` (not from the source) to compare the source's
accumulation against. -/
def mmulStd (A B : Matrix) (i j : Nat) : ℚ :=
  ((List.range A.cols).map fun k => A.data i k 0 * B.data k j 0).sum

/-- An operator run relates output to input by: same shape, and the alpha
channel (index 3) pointwise untouched. -/
def alphaSame (A R : Matrix) : Prop :=
  R.rows = A.rows ∧ R.cols = A.cols ∧ R.chls = A.chls ∧
    ∀ i j, R.data i j 3 = A.data i j 3

/-- A 1-pixel 4-channel probe image with every value 1/2. -/
def probeImage : Matrix := ⟨1, 1, 4, fun _ _ _ => 1/2⟩

/-- A 2×2 1-channel (grayscale) probe image. -/
def probeGray : Matrix := ⟨2, 2, 1, fun _ _ _ => 1/2⟩

/-- A 1-pixel 4-channel all-white probe image. -/
def probeWhite : Matrix := ⟨1, 1, 4, fun _ _ _ => 1⟩

theorem get3_ok {A : Matrix} {i j k : Nat} (hi : i < A.rows) (hj : j < A.cols)
    (hk : k < A.chls) : A.get3 i j k = .ok (A.data i j k) := by
  unfold Matrix.get3
  rw [if_neg]
  push_neg
  exact ⟨hi, hj, hk⟩

theorem set3_ok {A : Matrix} {i j k : Nat} (hi : i < A.rows) (hj : j < A.cols)
    (hk : k < A.chls) (v : ℚ) :
    A.set3 i j k v = .ok ⟨A.rows, A.cols, A.chls, upd A.data (i, j, k) v⟩ := by
  unfold Matrix.set3
  rw [if_neg]
  push_neg
  exact ⟨hi, hj, hk⟩

theorem getCell_ok {A : Matrix} {i j : Nat} (hi : i < A.rows) (hj : j < A.cols) :
    A.getCell i j = .ok (A.data i j) := by
  unfold Matrix.getCell
  rw [if_neg]
  push_neg
  exact ⟨hi, hj⟩

theorem setCell_ok {A : Matrix} {i j : Nat} (hi : i < A.rows) (hj : j < A.cols)
    (cell : Nat → ℚ) :
    A.setCell i j cell = .ok ⟨A.rows, A.cols, A.chls, updCell A.data (i, j) cell⟩ := by
  unfold Matrix.setCell
  rw [if_neg]
  push_neg
  exact ⟨hi, hj⟩

/-- A one-position update is the cell update that rewrites only that
channel. -/
theorem upd_eq_updCell {d : Nat → Nat → Nat → ℚ} {i j k0 : Nat} {v : ℚ} :
    upd d (i, j, k0) v = updCell d (i, j) fun k => if k = k0 then v else d i j k := by
  funext a b c
  by_cases h1 : a = i <;> by_cases h2 : b = j <;> by_cases h3 : c = k0 <;>
    simp_all [upd, updCell]

theorem updCell_updCell {d : Nat → Nat → Nat → ℚ} {p : Nat × Nat}
    {c1 c2 : Nat → ℚ} : updCell (updCell d p c1) p c2 = updCell d p c2 := by
  funext a b c
  by_cases h1 : a = p.1 <;> by_cases h2 : b = p.2 <;> simp_all [updCell]

theorem upd_upd {d : Nat → Nat → Nat → ℚ} {t : Nat × Nat × Nat} {v1 v2 : ℚ} :
    upd (upd d t v1) t v2 = upd d t v2 := by
  funext a b c
  by_cases h1 : a = t.1 <;> by_cases h2 : b = t.2.1 <;> by_cases h3 : c = t.2.2 <;>
    simp_all [upd]

theorem upd_same {d : Nat → Nat → Nat → ℚ} {t : Nat × Nat × Nat} :
    upd d t (d t.1 t.2.1 t.2.2) = d := by
  funext a b c
  by_cases h1 : a = t.1 <;> by_cases h2 : b = t.2.1 <;> by_cases h3 : c = t.2.2 <;>
    simp_all [upd]

theorem updCell_at {d : Nat → Nat → Nat → ℚ} {p : Nat × Nat} {cell : Nat → ℚ}
    (k : Nat) : updCell d p cell p.1 p.2 k = cell k := by
  simp [updCell]

theorem upd_at {d : Nat → Nat → Nat → ℚ} {t : Nat × Nat × Nat} {v : ℚ} :
    upd d t v t.1 t.2.1 t.2.2 = v := by
  simp [upd]

/-- A `foldl` whose step preserves a predicate preserves it overall. -/
theorem foldl_preserves {α : Type} (f : Matrix → α → Matrix) (P : Matrix → Prop)
    (h : ∀ M a, P M → P (f M a)) :
    ∀ (L : List α) (A : Matrix), P A → P (L.foldl f A) := by
  intro L
  induction L with
  | nil => intro A hA; exact hA
  | cons t ts ih => intro A hA; exact ih (f A t) (h A t hA)

theorem flipX_rows (A : Matrix) : A.flipX.rows = A.rows := by
  have := foldl_preserves (fun M j => M.swapCol j (M.cols - j - 1))
    (fun M => M.rows = A.rows ∧ M.cols = A.cols ∧ M.chls = A.chls)
    (fun M a hM => hM) (List.range ((A.cols + 1) / 2)) A ⟨rfl, rfl, rfl⟩
  exact this.1

theorem flipX_cols (A : Matrix) : A.flipX.cols = A.cols := by
  have := foldl_preserves (fun M j => M.swapCol j (M.cols - j - 1))
    (fun M => M.rows = A.rows ∧ M.cols = A.cols ∧ M.chls = A.chls)
    (fun M a hM => hM) (List.range ((A.cols + 1) / 2)) A ⟨rfl, rfl, rfl⟩
  exact this.2.1

theorem flipX_chls (A : Matrix) : A.flipX.chls = A.chls := by
  have := foldl_preserves (fun M j => M.swapCol j (M.cols - j - 1))
    (fun M => M.rows = A.rows ∧ M.cols = A.cols ∧ M.chls = A.chls)
    (fun M a hM => hM) (List.range ((A.cols + 1) / 2)) A ⟨rfl, rfl, rfl⟩
  exact this.2.2

theorem flipY_rows (A : Matrix) : A.flipY.rows = A.rows := by
  have := foldl_preserves (fun M i => M.swapRow i (M.rows - i - 1))
    (fun M => M.rows = A.rows ∧ M.cols = A.cols ∧ M.chls = A.chls)
    (fun M a hM => hM) (List.range ((A.rows + 1) / 2)) A ⟨rfl, rfl, rfl⟩
  exact this.1

theorem flipY_cols (A : Matrix) : A.flipY.cols = A.cols := by
  have := foldl_preserves (fun M i => M.swapRow i (M.rows - i - 1))
    (fun M => M.rows = A.rows ∧ M.cols = A.cols ∧ M.chls = A.chls)
    (fun M a hM => hM) (List.range ((A.rows + 1) / 2)) A ⟨rfl, rfl, rfl⟩
  exact this.2.1

theorem flipY_chls (A : Matrix) : A.flipY.chls = A.chls := by
  have := foldl_preserves (fun M i => M.swapRow i (M.rows - i - 1))
    (fun M => M.rows = A.rows ∧ M.cols = A.cols ∧ M.chls = A.chls)
    (fun M a hM => hM) (List.range ((A.rows + 1) / 2)) A ⟨rfl, rfl, rfl⟩
  exact this.2.2

theorem flipXY_rows (A : Matrix) : A.flipXY.rows = A.rows := by
  unfold Matrix.flipXY
  rw [flipY_rows, flipX_rows]

theorem flipXY_cols (A : Matrix) : A.flipXY.cols = A.cols := by
  unfold Matrix.flipXY
  rw [flipY_cols, flipX_cols]

theorem flipXY_chls (A : Matrix) : A.flipXY.chls = A.chls := by
  unfold Matrix.flipXY
  rw [flipY_chls, flipX_chls]

/-- A fold whose very first step throws, throws. -/
theorem foldlM_firstError {α : Type} {step : Matrix → α → Except JsError Matrix}
    {e : JsError} {A : Matrix} {t : α} (ts : List α) (h : step A t = .error e) :
    (t :: ts).foldlM step A = .error e := by
  rw [List.foldlM_cons, h]
  rfl

theorem ok_bind {α β : Type} (x : α) (f : α → Except JsError β) :
    (Except.ok x >>= f) = f x := rfl

theorem cellIdx_cons {r c : Nat} (hr : 1 ≤ r) (hc : 1 ≤ c) :
    ∃ rest, cellIdx r c = ((0, 0) : Nat × Nat) :: rest := by
  obtain ⟨r', rfl⟩ : ∃ r', r = r' + 1 := ⟨r - 1, by omega⟩
  obtain ⟨c', rfl⟩ : ∃ c', c = c' + 1 := ⟨c - 1, by omega⟩
  unfold cellIdx
  rw [List.range_succ_eq_map, List.range_succ_eq_map, List.flatMap_cons,
    List.map_cons, List.cons_append]
  exact ⟨_, rfl⟩

/-- `fillAlpha` on a matrix with at least 4 channels: alpha written, all else
untouched. -/
theorem fillAlpha_ok {A : Matrix} (a : ℚ) (h4 : 4 ≤ A.chls) :
    ∃ d', A.fillAlpha a = .ok ⟨A.rows, A.cols, A.chls, d'⟩ ∧
      (∀ i j, i < A.rows → j < A.cols → ∀ k,
        d' i j k = if k = 3 then a else A.data i j k) ∧
      (∀ i j, A.rows ≤ i ∨ A.cols ≤ j → ∀ k, d' i j k = A.data i j k) := by
  have H := foldlM_cellwise (r := A.rows) (c := A.cols) (n := A.chls)
    (fun M p => M.set3 p.1 p.2 3 a) (fun p => p)
    (fun d p k => if k = 3 then a else d p.1 p.2 k) (fun p => [p])
    (cellIdx A.rows A.cols) (cellIdx_nodup ..) ?hsep ?hF ?hstep A rfl rfl rfl
  case hsep =>
    intro t _ p _ hne hmem
    exact hne (by simpa using hmem)
  case hF =>
    intro d d' p _ hagree k
    by_cases hk : k = 3
    · simp [hk]
    · simpa [hk] using hagree p (by simp) k
  case hstep =>
    intro M p hp h1 h2 h3
    have hp2 := mem_cellIdx.1 hp
    show M.set3 p.1 p.2 3 a = _
    rw [set3_ok (by omega) (by omega) (by omega) a, upd_eq_updCell, h1, h2, h3]
  obtain ⟨d', hfold, hin, hout⟩ := H
  refine ⟨d', hfold, ?_, ?_⟩
  · intro i j hi hj k
    exact hin (i, j) (mem_cellIdx.2 ⟨hi, hj⟩) (fun p _ h => h) k
  · intro i j hout2 k
    apply hout i j ?_ k
    intro t ht h
    have hm := mem_cellIdx.1 ht
    have h' : t = (i, j) := h
    rw [h'] at hm
    omega

/-- `fillAlpha` on a nonempty matrix with at most 3 channels throws
RangeError at the very first cell (`set(0, 0, a, 3)` is out of range). -/
theorem fillAlpha_err {A : Matrix} (a : ℚ) (h3 : A.chls ≤ 3)
    (hr : 1 ≤ A.rows) (hc : 1 ≤ A.cols) :
    A.fillAlpha a = .error .rangeError := by
  obtain ⟨rest, hrest⟩ := cellIdx_cons hr hc
  unfold Matrix.fillAlpha
  rw [hrest]
  apply foldlM_firstError
  show A.set3 0 0 3 a = _
  unfold Matrix.set3
  rw [if_pos]
  right
  right
  omega

/-- `copy` into a target that the offset image fits inside: the target's
shape is kept, offset cells receive the source, everything else is
untouched. -/
theorem copy_ok {A T : Matrix} {y z : Nat}
    (hr : A.rows + y ≤ T.rows) (hc : A.cols + z ≤ T.cols) :
    ∃ d', A.copy T y z = .ok ⟨T.rows, T.cols, T.chls, d'⟩ ∧
      (∀ i j, i < A.rows → j < A.cols → ∀ k, d' (i + y) (j + z) k = A.data i j k) ∧
      (∀ i j, (∀ i2 j2, i2 < A.rows → j2 < A.cols → ¬(i2 + y = i ∧ j2 + z = j)) →
        ∀ k, d' i j k = T.data i j k) := by
  have H := foldlM_cellwise (r := T.rows) (c := T.cols) (n := T.chls)
    (fun (M : Matrix) p => do
      let cell ← A.getCell p.1 p.2
      M.setCell (p.1 + y) (p.2 + z) cell)
    (fun p => (p.1 + y, p.2 + z))
    (fun _ p k => A.data p.1 p.2 k) (fun _ => [])
    (cellIdx A.rows A.cols) (cellIdx_nodup ..) ?hsep ?hF ?hstep T rfl rfl rfl
  case hsep =>
    intro t _ p _ _ hmem
    simp at hmem
  case hF =>
    intro d d' p _ _ k
    rfl
  case hstep =>
    intro M p hp h1 h2 h3
    have hp2 := mem_cellIdx.1 hp
    show ((A.getCell p.1 p.2).bind fun cell => M.setCell (p.1 + y) (p.2 + z) cell) = _
    rw [getCell_ok hp2.1 hp2.2]
    show M.setCell (p.1 + y) (p.2 + z) (A.data p.1 p.2) = _
    rw [setCell_ok (by omega) (by omega), h1, h2, h3]
  obtain ⟨d', hfold, hin, hout⟩ := H
  refine ⟨d', hfold, ?_, ?_⟩
  · intro i j hi hj k
    refine hin (i, j) (mem_cellIdx.2 ⟨hi, hj⟩) ?_ k
    intro p hp h
    have := mem_cellIdx.1 hp
    have h1 := congrArg Prod.fst h
    have h2 := congrArg Prod.snd h
    simp only at h1 h2
    exact Prod.ext (by omega) (by omega)
  · intro i j hmiss k
    apply hout i j ?_ k
    intro t ht h
    have htm := mem_cellIdx.1 ht
    have h1 := congrArg Prod.fst h
    have h2 := congrArg Prod.snd h
    simp only at h1 h2
    exact hmiss t.1 t.2 htm.1 htm.2 ⟨h1, h2⟩

theorem extrude_err_low {A : Matrix} {n : Nat} (h : n ≤ 1) :
    A.extrude n = .error .rangeError := by
  unfold Matrix.extrude
  rw [if_pos h]

theorem extrude_err_lt {A : Matrix} {n : Nat} (h1 : 2 ≤ n) (h2 : n < A.chls) :
    A.extrude n = .error .rangeError := by
  unfold Matrix.extrude
  rw [if_neg (by omega), if_pos h2]

/-- Successful `extrude`: old channels unchanged, new channels (and, for a
1-channel receiver, every channel) hold the old last channel's value. -/
theorem extrude_ok {A : Matrix} {n : Nat} (h1 : 2 ≤ n) (h2 : A.chls ≤ n) :
    ∃ d', A.extrude n = .ok ⟨A.rows, A.cols, n, d'⟩ ∧
      (∀ i j, i < A.rows → j < A.cols → ∀ k,
        d' i j k = if A.chls ≤ k then A.data i j (A.chls - 1) else A.data i j k) ∧
      (∀ i j, A.rows ≤ i ∨ A.cols ≤ j → ∀ k, d' i j k = A.data i j k) := by
  have H := foldlM_cellwise (r := A.rows) (c := A.cols) (n := A.chls)
    (fun (M : Matrix) p => M.setCell p.1 p.2
      (fun k => if A.chls ≤ k then M.data p.1 p.2 (A.chls - 1) else M.data p.1 p.2 k))
    (fun p => p)
    (fun d p k => if A.chls ≤ k then d p.1 p.2 (A.chls - 1) else d p.1 p.2 k)
    (fun p => [p])
    (cellIdx A.rows A.cols) (cellIdx_nodup ..) ?hsep ?hF ?hstep A rfl rfl rfl
  case hsep =>
    intro t _ p _ hne hmem
    exact hne (by simpa using hmem)
  case hF =>
    intro d d' p _ hagree k
    by_cases hk : A.chls ≤ k
    · simpa [hk] using hagree p (by simp) (A.chls - 1)
    · simpa [hk] using hagree p (by simp) k
  case hstep =>
    intro M p hp h1 h2 h3
    have hp2 := mem_cellIdx.1 hp
    show M.setCell p.1 p.2 _ = _
    rw [setCell_ok (by omega) (by omega), h1, h2, h3]
  obtain ⟨d', hfold, hin, hout⟩ := H
  refine ⟨d', ?_, ?_, ?_⟩
  · unfold Matrix.extrude
    rw [if_neg (by omega), if_neg (by omega), hfold]
    rfl
  · intro i j hi hj k
    exact hin (i, j) (mem_cellIdx.2 ⟨hi, hj⟩) (fun p _ h => h) k
  · intro i j houtside k
    apply hout i j ?_ k
    intro t ht h
    have hm := mem_cellIdx.1 ht
    have h' : t = (i, j) := h
    rw [h'] at hm
    omega

theorem mem_applyAllIdx {A : Matrix} {t : Nat × Nat × Nat} :
    t ∈ applyAllIdx A ↔ t.1 < A.rows ∧ t.2.1 < A.cols ∧ t.2.2 < max A.chls 1 := by
  unfold applyAllIdx
  by_cases h : 1 < A.chls
  · rw [if_pos h, mem_tripleIdx]
    omega
  · rw [if_neg h, mem_tripleIdx]
    omega

theorem applyAllIdx_nodup (A : Matrix) : (applyAllIdx A).Nodup := by
  unfold applyAllIdx
  by_cases h : 1 < A.chls
  · rw [if_pos h]; exact tripleIdx_nodup ..
  · rw [if_neg h]; exact tripleIdx_nodup ..

/-- `div` by a nonzero scalar: every `applyAll` index divided in place. -/
theorem div_ok {A : Matrix} {v : ℚ} (hv : v ≠ 0) :
    ∃ d', A.div v = .ok ⟨A.rows, A.cols, A.chls, d'⟩ ∧
      (∀ t ∈ applyAllIdx A, d' t.1 t.2.1 t.2.2 = A.data t.1 t.2.1 t.2.2 / v) ∧
      ∀ p ∉ applyAllIdx A,
        d' p.1 p.2.1 p.2.2 = A.data p.1 p.2.1 p.2.2 := by
  have H := foldlM_writeOnce (r := A.rows) (c := A.cols) (n := A.chls)
    (fun (M : Matrix) t => .ok ⟨M.rows, M.cols, M.chls, upd M.data t (M.data t.1 t.2.1 t.2.2 / v)⟩)
    (fun d t => d t.1 t.2.1 t.2.2 / v) (fun t => [t])
    (applyAllIdx A) (applyAllIdx_nodup A) ?hsep ?hF ?hstep A rfl rfl rfl
  case hsep =>
    intro t _ p _ hne hmem
    exact hne (by simpa using hmem)
  case hF =>
    intro d d' t _ hagree
    show d t.1 t.2.1 t.2.2 / v = d' t.1 t.2.1 t.2.2 / v
    rw [hagree t (by simp)]
  case hstep =>
    intro M t _ h1 h2 h3
    show Except.ok _ = _
    rw [h1, h2, h3]
  obtain ⟨d', hfold, hin, hout⟩ := H
  refine ⟨d', ?_, hin, hout⟩
  unfold Matrix.div
  rw [if_neg hv, hfold]

/-- `normalize` clips every `applyAll` index into [0, 1]. -/
theorem normalize_ok {A : Matrix} (h1 : 1 ≤ A.chls) :
    ∃ d', normalize A = .ok ⟨A.rows, A.cols, A.chls, d'⟩ ∧
      (∀ t ∈ applyAllIdx A,
        d' t.1 t.2.1 t.2.2 = clip (A.data t.1 t.2.1 t.2.2) 0 1) ∧
      ∀ p ∉ applyAllIdx A,
        d' p.1 p.2.1 p.2.2 = A.data p.1 p.2.1 p.2.2 := by
  have H := foldlM_writeOnce (r := A.rows) (c := A.cols) (n := A.chls)
    (fun (M : Matrix) t => do
      let x ← M.get3 t.1 t.2.1 t.2.2
      M.set3 t.1 t.2.1 t.2.2 (clip x 0 1))
    (fun d t => clip (d t.1 t.2.1 t.2.2) 0 1) (fun t => [t])
    (applyAllIdx A) (applyAllIdx_nodup A) ?hsep ?hF ?hstep A rfl rfl rfl
  case hsep =>
    intro t _ p _ hne hmem
    exact hne (by simpa using hmem)
  case hF =>
    intro d d' t _ hagree
    show clip (d t.1 t.2.1 t.2.2) 0 1 = clip (d' t.1 t.2.1 t.2.2) 0 1
    rw [hagree t (by simp)]
  case hstep =>
    intro M t ht h1 h2 h3
    have htm := mem_applyAllIdx.1 ht
    have hk : t.2.2 < A.chls := by omega
    show ((M.get3 t.1 t.2.1 t.2.2).bind fun x => M.set3 t.1 t.2.1 t.2.2 (clip x 0 1)) = _
    rw [get3_ok (by omega) (by omega) (by omega)]
    show M.set3 t.1 t.2.1 t.2.2 (clip (M.data t.1 t.2.1 t.2.2) 0 1) = _
    rw [set3_ok (by omega) (by omega) (by omega), h1, h2, h3]
  exact H

/-- The common blend shape: color channels 0-2 combined pointwise with `f`,
alpha and out-of-range positions untouched. -/
theorem pixelBlend_ok {f : ℚ → ℚ → ℚ} {A B : Matrix}
    (hrB : B.rows = A.rows) (hcB : B.cols = A.cols)
    (hA : 3 ≤ A.chls) (hB : 3 ≤ B.chls) :
    ∃ d', pixelBlend f A B = .ok ⟨A.rows, A.cols, A.chls, d'⟩ ∧
      (∀ i j k, i < A.rows → j < A.cols → k < 3 →
        d' i j k = f (A.data i j k) (B.data i j k)) ∧
      (∀ i j k, 3 ≤ k ∨ A.rows ≤ i ∨ A.cols ≤ j → d' i j k = A.data i j k) := by
  have H := foldlM_writeOnce (r := A.rows) (c := A.cols) (n := A.chls)
    (fun (M : Matrix) t => do
      let a ← M.get3 t.1 t.2.1 t.2.2
      let b ← B.get3 t.1 t.2.1 t.2.2
      M.set3 t.1 t.2.1 t.2.2 (f a b))
    (fun d t => f (d t.1 t.2.1 t.2.2) (B.data t.1 t.2.1 t.2.2)) (fun t => [t])
    (tripleIdx A.rows A.cols 3) (tripleIdx_nodup ..) ?hsep ?hF ?hstep A rfl rfl rfl
  case hsep =>
    intro t _ p _ hne hmem
    exact hne (by simpa using hmem)
  case hF =>
    intro d d' t _ hagree
    show f (d t.1 t.2.1 t.2.2) _ = f (d' t.1 t.2.1 t.2.2) _
    rw [hagree t (by simp)]
  case hstep =>
    intro M t ht h1 h2 h3
    have htm := mem_tripleIdx.1 ht
    show ((M.get3 t.1 t.2.1 t.2.2).bind fun a => (B.get3 t.1 t.2.1 t.2.2).bind fun b =>
      M.set3 t.1 t.2.1 t.2.2 (f a b)) = _
    rw [get3_ok (by omega) (by omega) (by omega)]
    show ((B.get3 t.1 t.2.1 t.2.2).bind fun b => M.set3 t.1 t.2.1 t.2.2 _) = _
    rw [get3_ok (by omega) (by omega) (by omega)]
    show M.set3 t.1 t.2.1 t.2.2 _ = _
    rw [set3_ok (by omega) (by omega) (by omega), h1, h2, h3]
  obtain ⟨d', hfold, hin, hout⟩ := H
  refine ⟨d', hfold, ?_, ?_⟩
  · intro i j k hi hj hk
    exact hin (i, j, k) (mem_tripleIdx.2 ⟨hi, hj, hk⟩)
  · intro i j k hcond
    apply hout (i, j, k)
    intro hmem
    simp only [mem_tripleIdx] at hmem
    omega

/-- Porter-Duff `normal`: the exact per-channel result formula. -/
theorem normal_ok {A B : Matrix}
    (hrB : B.rows = A.rows) (hcB : B.cols = A.cols)
    (hA : 4 ≤ A.chls) (hB : 4 ≤ B.chls) :
    ∃ d', normal A B = .ok ⟨A.rows, A.cols, A.chls, d'⟩ ∧
      (∀ i j k, i < A.rows → j < A.cols → k < 3 →
        d' i j k = (A.data i j k * A.data i j 3 +
            B.data i j k * B.data i j 3 * (1 - A.data i j 3)) /
          (A.data i j 3 + B.data i j 3 * (1 - A.data i j 3))) ∧
      (∀ i j k, 3 ≤ k ∨ A.rows ≤ i ∨ A.cols ≤ j → d' i j k = A.data i j k) := by
  have H := foldlM_writeOnce (r := A.rows) (c := A.cols) (n := A.chls)
    (fun (M : Matrix) t => do
      let aa ← M.get3 t.1 t.2.1 3
      let ba ← B.get3 t.1 t.2.1 3
      let ac ← M.get3 t.1 t.2.1 t.2.2
      let bc ← B.get3 t.1 t.2.1 t.2.2
      M.set3 t.1 t.2.1 t.2.2
        ((ac * aa + bc * ba * (1 - aa)) / (aa + ba * (1 - aa))))
    (fun d t => (d t.1 t.2.1 t.2.2 * d t.1 t.2.1 3 +
        B.data t.1 t.2.1 t.2.2 * B.data t.1 t.2.1 3 * (1 - d t.1 t.2.1 3)) /
      (d t.1 t.2.1 3 + B.data t.1 t.2.1 3 * (1 - d t.1 t.2.1 3)))
    (fun t => [t, (t.1, t.2.1, 3)])
    (tripleIdx A.rows A.cols 3) (tripleIdx_nodup ..) ?hsep ?hF ?hstep A rfl rfl rfl
  case hsep =>
    intro t ht p hp hne hmem
    simp only [List.mem_cons, List.not_mem_nil, or_false] at hmem
    rcases hmem with h | h
    · exact hne h
    · simp only [mem_tripleIdx] at ht
      rw [h] at ht
      simp only at ht
      omega
  case hF =>
    intro d d' t _ hagree
    have h1 := hagree t (by simp)
    have h2 := hagree (t.1, t.2.1, 3) (by simp)
    simp only at h1 h2
    show (d t.1 t.2.1 t.2.2 * d t.1 t.2.1 3 + _ * _ * (1 - d t.1 t.2.1 3)) /
      (d t.1 t.2.1 3 + _ * (1 - d t.1 t.2.1 3)) = _
    rw [h1, h2]
  case hstep =>
    intro M t ht h1 h2 h3
    simp only [mem_tripleIdx] at ht
    show ((M.get3 t.1 t.2.1 3).bind fun aa => (B.get3 t.1 t.2.1 3).bind fun ba =>
      (M.get3 t.1 t.2.1 t.2.2).bind fun ac => (B.get3 t.1 t.2.1 t.2.2).bind fun bc =>
      M.set3 t.1 t.2.1 t.2.2 ((ac * aa + bc * ba * (1 - aa)) / (aa + ba * (1 - aa)))) = _
    rw [get3_ok (by omega) (by omega) (by omega)]
    show ((B.get3 t.1 t.2.1 3).bind fun ba =>
      (M.get3 t.1 t.2.1 t.2.2).bind fun ac => (B.get3 t.1 t.2.1 t.2.2).bind fun bc =>
      M.set3 t.1 t.2.1 t.2.2 _) = _
    rw [get3_ok (by omega) (by omega) (by omega)]
    show ((M.get3 t.1 t.2.1 t.2.2).bind fun ac => (B.get3 t.1 t.2.1 t.2.2).bind fun bc =>
      M.set3 t.1 t.2.1 t.2.2 _) = _
    rw [get3_ok (by omega) (by omega) (by omega)]
    show ((B.get3 t.1 t.2.1 t.2.2).bind fun bc => M.set3 t.1 t.2.1 t.2.2 _) = _
    rw [get3_ok (by omega) (by omega) (by omega)]
    show M.set3 t.1 t.2.1 t.2.2 _ = _
    rw [set3_ok (by omega) (by omega) (by omega), h1, h2, h3]
  obtain ⟨d', hfold, hin, hout⟩ := H
  refine ⟨d', hfold, ?_, ?_⟩
  · intro i j k hi hj hk
    exact hin (i, j, k) (mem_tripleIdx.2 ⟨hi, hj, hk⟩)
  · intro i j k hcond
    apply hout (i, j, k)
    intro hmem
    simp only [mem_tripleIdx] at hmem
    omega

/-- `invert` on a matrix with ≥ 3 channels: channels 0-2 become `1 − value`,
everything else untouched. -/
theorem invert_ok {A : Matrix} (hA : 3 ≤ A.chls) :
    ∃ d', invert A = .ok ⟨A.rows, A.cols, A.chls, d'⟩ ∧
      (∀ i j, i < A.rows → j < A.cols → ∀ k,
        d' i j k = if k = 0 then 1 - A.data i j 0 else if k = 1 then 1 - A.data i j 1
          else if k = 2 then 1 - A.data i j 2 else A.data i j k) ∧
      (∀ i j, A.rows ≤ i ∨ A.cols ≤ j → ∀ k, d' i j k = A.data i j k) := by
  have H := foldlM_cellwise (r := A.rows) (c := A.cols) (n := A.chls)
    (fun (M : Matrix) p => do
      let r ← M.get3 p.1 p.2 0
      let g ← M.get3 p.1 p.2 1
      let b ← M.get3 p.1 p.2 2
      if M.chls < 3 then .error .genericError
      else M.setCell p.1 p.2 (fun k =>
        if k = 0 then 1 - r else if k = 1 then 1 - g
        else if k = 2 then 1 - b else M.data p.1 p.2 k))
    (fun p => p)
    (fun d p k => if k = 0 then 1 - d p.1 p.2 0 else if k = 1 then 1 - d p.1 p.2 1
      else if k = 2 then 1 - d p.1 p.2 2 else d p.1 p.2 k)
    (fun p => [p])
    (cellIdx A.rows A.cols) (cellIdx_nodup ..) ?hsep ?hF ?hstep A rfl rfl rfl
  case hsep =>
    intro t _ p _ hne hmem
    exact hne (by simpa using hmem)
  case hF =>
    intro d d' p _ hagree k
    have h0 := hagree p (by simp) 0
    have h1 := hagree p (by simp) 1
    have h2 := hagree p (by simp) 2
    have hk := hagree p (by simp) k
    by_cases hk0 : k = 0
    · simp [hk0, h0]
    · by_cases hk1 : k = 1
      · simp [hk0, hk1, h1]
      · by_cases hk2 : k = 2
        · simp [hk0, hk1, hk2, h2]
        · simp [hk0, hk1, hk2, hk]
  case hstep =>
    intro M p hp h1 h2 h3
    have hp2 := mem_cellIdx.1 hp
    show ((M.get3 p.1 p.2 0).bind fun r => (M.get3 p.1 p.2 1).bind fun g =>
      (M.get3 p.1 p.2 2).bind fun b =>
      if M.chls < 3 then .error .genericError
      else M.setCell p.1 p.2 (fun k =>
        if k = 0 then 1 - r else if k = 1 then 1 - g
        else if k = 2 then 1 - b else M.data p.1 p.2 k)) = _
    rw [get3_ok (by omega) (by omega) (by omega)]
    show ((M.get3 p.1 p.2 1).bind fun g => (M.get3 p.1 p.2 2).bind fun b =>
      if M.chls < 3 then .error .genericError else M.setCell p.1 p.2 _) = _
    rw [get3_ok (by omega) (by omega) (by omega)]
    show ((M.get3 p.1 p.2 2).bind fun b =>
      if M.chls < 3 then .error .genericError else M.setCell p.1 p.2 _) = _
    rw [get3_ok (by omega) (by omega) (by omega)]
    show (if M.chls < 3 then Except.error .genericError
      else M.setCell p.1 p.2 _) = _
    rw [if_neg (by omega)]
    rw [setCell_ok (by omega) (by omega), h1, h2, h3]
  obtain ⟨d', hfold, hin, hout⟩ := H
  refine ⟨d', hfold, ?_, ?_⟩
  · intro i j hi hj k
    exact hin (i, j) (mem_cellIdx.2 ⟨hi, hj⟩) (fun p _ h => h) k
  · intro i j hcond k
    apply hout i j ?_ k
    intro t ht h
    have hm := mem_cellIdx.1 ht
    have h' : t = (i, j) := h
    rw [h'] at hm
    omega

theorem get2_ok {A : Matrix} {i j : Nat} (hi : i < A.rows) (hj : j < A.cols) :
    A.get2 i j = .ok (A.data i j 0) := by
  unfold Matrix.get2
  rw [getCell_ok hi hj]
  rfl

theorem set2_ok {A : Matrix} {i j : Nat} (hi : i < A.rows) (hj : j < A.cols)
    (v : ℚ) :
    A.set2 i j v = .ok ⟨A.rows, A.cols, A.chls, updCell A.data (i, j) fun _ => v⟩ := by
  unfold Matrix.set2
  exact setCell_ok hi hj _

/-- One step of the inner `k` loop of `mmul`. -/
theorem mmulStep_ok {A B : Matrix} {p : Nat × Nat} {k0 : Nat} (P : Matrix)
    (ha : k0 < A.rows) (hpa : p.2 < A.cols) (hpb : p.1 < B.rows)
    (hb : k0 < B.cols) (hp1 : p.1 < P.rows) (hp2 : p.2 < P.cols) :
    (do
      let a ← A.get2 k0 p.2
      let b ← B.get2 p.1 k0
      let old ← P.get2 p.1 p.2
      P.set2 p.1 p.2 (old + a * b)) =
      Except.ok (⟨P.rows, P.cols, P.chls, updCell P.data (p.1, p.2)
        fun _ => P.data p.1 p.2 0 + A.data k0 p.2 0 * B.data p.1 k0 0⟩ : Matrix) := by
  show ((A.get2 k0 p.2).bind fun a => (B.get2 p.1 k0).bind fun b =>
    (P.get2 p.1 p.2).bind fun old => P.set2 p.1 p.2 (old + a * b)) = _
  rw [get2_ok ha hpa]
  show ((B.get2 p.1 k0).bind fun b => (P.get2 p.1 p.2).bind fun old =>
    P.set2 p.1 p.2 (old + _ * b)) = _
  rw [get2_ok hpb hb]
  show ((P.get2 p.1 p.2).bind fun old => P.set2 p.1 p.2 (old + _)) = _
  rw [get2_ok hp1 hp2]
  show P.set2 p.1 p.2 _ = _
  rw [set2_ok hp1 hp2]

/-- The inner `k` loop of `mmul` (nonempty): the cell `p` of the product
accumulates the whole dot `Σ A[k][p.2] · B[p.1][k]`. -/
theorem mmulInner_ok {A B : Matrix} {p : Nat × Nat} :
    ∀ (k0 : Nat) (ks : List Nat) (P : Matrix),
    (∀ k ∈ k0 :: ks, k < A.rows ∧ k < B.cols) →
    p.2 < A.cols → p.1 < B.rows → p.1 < P.rows → p.2 < P.cols →
    ((k0 :: ks).foldlM
      (fun (P : Matrix) k => do
        let a ← A.get2 k p.2
        let b ← B.get2 p.1 k
        let old ← P.get2 p.1 p.2
        P.set2 p.1 p.2 (old + a * b)) P) =
      .ok ⟨P.rows, P.cols, P.chls, updCell P.data p
        (fun _ => P.data p.1 p.2 0 +
          (((k0 :: ks).map fun k => A.data k p.2 0 * B.data p.1 k 0).sum))⟩ := by
  intro k0 ks
  induction ks generalizing k0 with
  | nil =>
    intro P hks hpa hpb hp1 hp2
    have hk0 := hks k0 (List.mem_cons_self ..)
    rw [List.foldlM_cons, mmulStep_ok P hk0.1 hpa hpb hk0.2 hp1 hp2]
    simp only [ok_bind, List.foldlM_nil]
    show Except.ok _ = Except.ok _
    rw [Except.ok.injEq, Matrix.mk.injEq]
    refine ⟨rfl, rfl, rfl, ?_⟩
    funext a b c
    by_cases h1 : a = p.1 <;> by_cases h2 : b = p.2 <;>
      simp_all [updCell]
  | cons k1 rest ih =>
    intro P hks hpa hpb hp1 hp2
    have hk0 := hks k0 (List.mem_cons_self ..)
    rw [List.foldlM_cons, mmulStep_ok P hk0.1 hpa hpb hk0.2 hp1 hp2]
    simp only [ok_bind]
    rw [ih k1 (⟨P.rows, P.cols, P.chls, updCell P.data (p.1, p.2)
        fun _ => P.data p.1 p.2 0 + A.data k0 p.2 0 * B.data p.1 k0 0⟩ : Matrix)
      (fun k hk => hks k (List.mem_cons_of_mem _ hk)) hpa hpb hp1 hp2]
    rw [Except.ok.injEq, Matrix.mk.injEq]
    refine ⟨rfl, rfl, rfl, ?_⟩
    have hpp : (p.1, p.2) = p := rfl
    rw [hpp, updCell_updCell]
    funext a b c
    by_cases h1 : a = p.1 <;> by_cases h2 : b = p.2 <;>
      simp_all [updCell, List.map_cons, List.sum_cons, add_assoc]

/-- One step of the convolution window loop. -/
theorem convStep_ok {pad w : Matrix} {t : Nat × Nat × Nat} {q : Nat × Nat}
    (M : Matrix) (h1 : t.1 < M.rows) (h2 : t.2.1 < M.cols) (h3 : t.2.2 < M.chls)
    (hp1 : t.1 + q.1 < pad.rows) (hp2 : t.2.1 + q.2 < pad.cols)
    (hp3 : t.2.2 < pad.chls) (hw1 : q.1 < w.rows) (hw2 : q.2 < w.cols)
    (hw3 : t.2.2 < w.chls) :
    (do
      let x ← M.get3 t.1 t.2.1 t.2.2
      let pv ← pad.get3 (t.1 + q.1) (t.2.1 + q.2) t.2.2
      let wv ← w.get3 q.1 q.2 t.2.2
      M.set3 t.1 t.2.1 t.2.2 (x + pv * wv)) =
      Except.ok (⟨M.rows, M.cols, M.chls, upd M.data t
        (M.data t.1 t.2.1 t.2.2 +
          pad.data (t.1 + q.1) (t.2.1 + q.2) t.2.2 * w.data q.1 q.2 t.2.2)⟩ : Matrix) := by
  show ((M.get3 t.1 t.2.1 t.2.2).bind fun x =>
    (pad.get3 (t.1 + q.1) (t.2.1 + q.2) t.2.2).bind fun pv =>
    (w.get3 q.1 q.2 t.2.2).bind fun wv =>
    M.set3 t.1 t.2.1 t.2.2 (x + pv * wv)) = _
  rw [get3_ok h1 h2 h3]
  show ((pad.get3 (t.1 + q.1) (t.2.1 + q.2) t.2.2).bind fun pv =>
    (w.get3 q.1 q.2 t.2.2).bind fun wv =>
    M.set3 t.1 t.2.1 t.2.2 (_ + pv * wv)) = _
  rw [get3_ok hp1 hp2 hp3]
  show ((w.get3 q.1 q.2 t.2.2).bind fun wv =>
    M.set3 t.1 t.2.1 t.2.2 (_ + _ * wv)) = _
  rw [get3_ok hw1 hw2 hw3]
  show M.set3 t.1 t.2.1 t.2.2 _ = _
  rw [set3_ok h1 h2 h3]

/-- The convolution window double loop: the accumulator cell gains the full
windowed sum. -/
theorem convWindow_ok {pad w : Matrix} {t : Nat × Nat × Nat} :
    ∀ (qs : List (Nat × Nat)) (M : Matrix),
    (∀ q ∈ qs, t.1 + q.1 < pad.rows ∧ t.2.1 + q.2 < pad.cols ∧ t.2.2 < pad.chls ∧
      q.1 < w.rows ∧ q.2 < w.cols ∧ t.2.2 < w.chls) →
    t.1 < M.rows → t.2.1 < M.cols → t.2.2 < M.chls →
    (qs.foldlM
      (fun (M : Matrix) q => do
        let x ← M.get3 t.1 t.2.1 t.2.2
        let pv ← pad.get3 (t.1 + q.1) (t.2.1 + q.2) t.2.2
        let wv ← w.get3 q.1 q.2 t.2.2
        M.set3 t.1 t.2.1 t.2.2 (x + pv * wv)) M) =
      .ok ⟨M.rows, M.cols, M.chls, upd M.data t (M.data t.1 t.2.1 t.2.2 +
        ((qs.map fun q =>
          pad.data (t.1 + q.1) (t.2.1 + q.2) t.2.2 * w.data q.1 q.2 t.2.2).sum))⟩ := by
  intro qs
  induction qs with
  | nil =>
    intro M _ h1 h2 h3
    rw [List.foldlM_nil]
    rw [List.map_nil, List.sum_nil, add_zero, upd_same]
    rfl
  | cons q rest ih =>
    intro M hb h1 h2 h3
    have hq := hb q (List.mem_cons_self ..)
    rw [List.foldlM_cons,
      convStep_ok M h1 h2 h3 hq.1 hq.2.1 hq.2.2.1 hq.2.2.2.1 hq.2.2.2.2.1 hq.2.2.2.2.2]
    simp only [ok_bind]
    rw [ih (⟨M.rows, M.cols, M.chls, upd M.data t
        (M.data t.1 t.2.1 t.2.2 +
          pad.data (t.1 + q.1) (t.2.1 + q.2) t.2.2 * w.data q.1 q.2 t.2.2)⟩ : Matrix)
      (fun a ha => hb a (List.mem_cons_of_mem _ ha)) h1 h2 h3]
    rw [Except.ok.injEq, Matrix.mk.injEq]
    refine ⟨rfl, rfl, rfl, ?_⟩
    rw [upd_upd]
    funext a b c
    by_cases ha : a = t.1 <;> by_cases hb2 : b = t.2.1 <;> by_cases hc : c = t.2.2 <;>
      simp_all [upd, List.map_cons, List.sum_cons, add_assoc]

/-- `mmul` when it completes (square single-channel receiver, `B.cols ≤`
its size): entry (i, j) of the receiver becomes
`Σ_{k < B.cols} A[k][j] · B[i][k]` — note the transposed indexing the source
actually computes. -/
theorem mmul_ok {A B : Matrix} (hchA : A.chls ≤ 1) (hchB : B.chls ≤ 1)
    (hsq : A.rows = A.cols) (hAB : A.cols = B.rows)
    (hn1 : 1 ≤ B.cols) (hnA : B.cols ≤ A.rows) (hr1 : 1 ≤ A.rows) :
    ∃ d', A.mmul B = .ok ⟨A.rows, A.cols, A.chls, d'⟩ ∧
      ∀ i j, i < A.rows → j < A.cols →
        d' i j 0 = ((List.range B.cols).map fun k => A.data k j 0 * B.data i k 0).sum := by
  obtain ⟨n', hn⟩ : ∃ n', B.cols = n' + 1 := ⟨B.cols - 1, by omega⟩
  have hsplit : List.range B.cols = 0 :: (List.range n').map (· + 1) := by
    rw [hn, List.range_succ_eq_map]
  have hgen : generateNat A.cols B.rows 1 0 =
      .ok ⟨A.cols, B.rows, 1, fun _ _ _ => 0⟩ := by
    unfold generateNat
    rw [if_neg]
    push_neg
    refine ⟨by omega, by omega, by omega⟩
  have H := foldlM_cellwise (r := A.cols) (c := B.rows) (n := 1)
    (fun (P : Matrix) p => (List.range B.cols).foldlM
      (fun (P : Matrix) k => do
        let a ← A.get2 k p.2
        let b ← B.get2 p.1 k
        let old ← P.get2 p.1 p.2
        P.set2 p.1 p.2 (old + a * b)) P)
    (fun p => p)
    (fun d p _ => d p.1 p.2 0 +
      ((List.range B.cols).map fun k => A.data k p.2 0 * B.data p.1 k 0).sum)
    (fun p => [p])
    (cellIdx A.rows A.cols) (cellIdx_nodup ..) ?hsep ?hF ?hstep
    ⟨A.cols, B.rows, 1, fun _ _ _ => 0⟩ rfl rfl rfl
  case hsep =>
    intro t _ p _ hne hmem
    exact hne (by simpa using hmem)
  case hF =>
    intro d d' p _ hagree k
    have h0 := hagree p (by simp) 0
    show d p.1 p.2 0 + _ = d' p.1 p.2 0 + _
    rw [h0]
  case hstep =>
    intro M p hp h1 h2 h3
    have hp2 := mem_cellIdx.1 hp
    show (List.range B.cols).foldlM _ M = _
    rw [hsplit]
    rw [mmulInner_ok 0 ((List.range n').map (· + 1)) M ?bnd (by omega) (by omega)
      (by omega) (by omega)]
    case bnd =>
      intro k hk
      simp only [List.mem_cons, List.mem_map, List.mem_range] at hk
      rcases hk with rfl | ⟨a, ha, rfl⟩
      · omega
      · omega
    rw [h1, h2, h3, ← hsplit]
  obtain ⟨dp, hfold, hin, hout⟩ := H
  have hcopy := copy_ok (A := (⟨A.cols, B.rows, 1, dp⟩ : Matrix)) (T := A)
    (y := 0) (z := 0) (by simpa using hsq.symm.le) (by simpa using hAB.symm.le)
  obtain ⟨df, hcopyeq, hcin, hcout⟩ := hcopy
  refine ⟨df, ?_, ?_⟩
  · unfold Matrix.mmul
    rw [if_neg (by omega), if_neg (by simpa using hAB), hgen]
    simp only [ok_bind]
    rw [hfold]
    simp only [ok_bind]
    exact hcopyeq
  · intro i j hi hj
    have h1 := hcin i j (by simpa using hsq ▸ hi) (by simpa using hAB ▸ hj) 0
    simp only [Nat.add_zero] at h1
    rw [h1]
    have h2 := hin (i, j) (mem_cellIdx.2 ⟨hi, hj⟩) (fun p _ h => h) 0
    simp only at h2
    rw [h2]
    exact zero_add _

theorem clip_of_le {x : ℚ} (h0 : 0 ≤ x) (h1 : x ≤ 1) : clip x 0 1 = x := by
  unfold clip
  rw [if_neg (not_lt.2 h0), if_neg (not_lt.2 h1)]

theorem clip_one : clip 1 0 1 = 1 := clip_of_le (by norm_num) le_rfl

/-- The convolution pipeline after a successful channel reconciliation
(`W` the reconciled kernel): the run completes, every color channel of the
result is the clipped zero-padded window sum against the flipped kernel, and
the alpha channel is 1 everywhere. -/
theorem convolution_spec {A w0 W : Matrix} (hr : 1 ≤ A.rows) (hc : 1 ≤ A.cols)
    (hch : A.chls = 4) (hodr : w0.rows % 2 = 1) (hodc : w0.cols % 2 = 1)
    (hW : (if w0.chls = 1 ∧ 1 < A.chls then w0.extrude A.chls else .ok w0) = .ok W)
    (hWr : W.rows = w0.rows) (hWc : W.cols = w0.cols)
    (hWch : W.chls = 3 ∨ W.chls = 4) :
    ∃ d', convolution A w0 = .ok ⟨A.rows, A.cols, A.chls, d'⟩ ∧
      (∀ i j k, i < A.rows → j < A.cols → k < 3 →
        d' i j k = clip (((cellIdx w0.rows w0.cols).map fun q =>
          (if w0.rows / 2 ≤ i + q.1 ∧ i + q.1 < A.rows + w0.rows / 2 ∧
              w0.cols / 2 ≤ j + q.2 ∧ j + q.2 < A.cols + w0.cols / 2
            then A.data (i + q.1 - w0.rows / 2) (j + q.2 - w0.cols / 2) k else 0) *
          W.flipXY.data q.1 q.2 k).sum) 0 1) ∧
      (∀ i j, i < A.rows → j < A.cols → d' i j 3 = 1) := by
  have hfr : W.flipXY.rows = w0.rows := by rw [flipXY_rows, hWr]
  have hfc : W.flipXY.cols = w0.cols := by rw [flipXY_cols, hWc]
  have hfch : W.flipXY.chls = W.chls := flipXY_chls W
  have hwr1 : 1 ≤ w0.rows := by omega
  have hwc1 : 1 ≤ w0.cols := by omega
  have hlist : cellIdx W.flipXY.rows W.flipXY.cols = cellIdx w0.rows w0.cols := by
    rw [hfr, hfc]
  have hz1 : zeros A.rows A.cols A.chls =
      .ok ⟨A.rows, A.cols, A.chls, fun _ _ _ => 0⟩ := by
    unfold zeros generateNat
    rw [if_neg]
    push_neg
    exact ⟨by omega, by omega, by omega⟩
  obtain ⟨da, hda, hdain, hdaout⟩ :=
    fillAlpha_ok (A := ⟨A.rows, A.cols, A.chls, fun _ _ _ => 0⟩) 1 (by simpa using hch.ge)
  have hz2 : zeros (A.rows + W.flipXY.rows / 2 * 2) (A.cols + W.flipXY.cols / 2 * 2)
      A.chls = .ok ⟨A.rows + W.flipXY.rows / 2 * 2, A.cols + W.flipXY.cols / 2 * 2,
        A.chls, fun _ _ _ => 0⟩ := by
    unfold zeros generateNat
    rw [if_neg]
    push_neg
    exact ⟨by omega, by omega, by omega⟩
  obtain ⟨dpad, hpadeq, hpadin, hpadout⟩ :=
    copy_ok (A := A)
      (T := ⟨A.rows + W.flipXY.rows / 2 * 2, A.cols + W.flipXY.cols / 2 * 2,
        A.chls, fun _ _ _ => 0⟩)
      (y := W.flipXY.rows / 2) (z := W.flipXY.cols / 2)
      (by show A.rows + W.flipXY.rows / 2 ≤ A.rows + W.flipXY.rows / 2 * 2; omega)
      (by show A.cols + W.flipXY.cols / 2 ≤ A.cols + W.flipXY.cols / 2 * 2; omega)
  -- the padded buffer reads the image at the offset, zero outside it
  have hpadval : ∀ x y k, x < A.rows + W.flipXY.rows / 2 * 2 →
      y < A.cols + W.flipXY.cols / 2 * 2 →
      dpad x y k = if w0.rows / 2 ≤ x ∧ x < A.rows + w0.rows / 2 ∧
          w0.cols / 2 ≤ y ∧ y < A.cols + w0.cols / 2
        then A.data (x - w0.rows / 2) (y - w0.cols / 2) k else 0 := by
    intro x y k hx hy
    by_cases hin2 : w0.rows / 2 ≤ x ∧ x < A.rows + w0.rows / 2 ∧
        w0.cols / 2 ≤ y ∧ y < A.cols + w0.cols / 2
    · rw [if_pos hin2]
      have hval := hpadin (x - w0.rows / 2) (y - w0.cols / 2) (by omega) (by omega) k
      rw [hfr, hfc] at hval
      rw [← hval]
      congr 1 <;> omega
    · rw [if_neg hin2]
      rw [hpadout x y ?_ k]
      intro i2 j2 hi2 hj2 hcontra
      rw [hfr, hfc] at hcontra
      omega
  -- the accumulation fold
  have HF := foldlM_writeOnce (r := A.rows) (c := A.cols) (n := A.chls)
    (fun (M : Matrix) t => (cellIdx W.flipXY.rows W.flipXY.cols).foldlM
      (fun (M : Matrix) q => do
        let x ← M.get3 t.1 t.2.1 t.2.2
        let pv ← (⟨A.rows + W.flipXY.rows / 2 * 2, A.cols + W.flipXY.cols / 2 * 2,
          A.chls, dpad⟩ : Matrix).get3 (t.1 + q.1) (t.2.1 + q.2) t.2.2
        let wv ← W.flipXY.get3 q.1 q.2 t.2.2
        M.set3 t.1 t.2.1 t.2.2 (x + pv * wv)) M)
    (fun d t => d t.1 t.2.1 t.2.2 +
      ((cellIdx W.flipXY.rows W.flipXY.cols).map fun q =>
        dpad (t.1 + q.1) (t.2.1 + q.2) t.2.2 * W.flipXY.data q.1 q.2 t.2.2).sum)
    (fun t => [t])
    (tripleIdx A.rows A.cols (min A.chls 3)) (tripleIdx_nodup ..)
    ?hsep ?hF ?hstep ⟨A.rows, A.cols, A.chls, da⟩ rfl rfl rfl
  case hsep =>
    intro t _ p _ hne hmem
    exact hne (by simpa using hmem)
  case hF =>
    intro d d' t _ hagree
    show d t.1 t.2.1 t.2.2 + _ = d' t.1 t.2.1 t.2.2 + _
    rw [hagree t (by simp)]
  case hstep =>
    intro M t ht h1 h2 h3
    simp only [mem_tripleIdx] at ht
    show (cellIdx W.flipXY.rows W.flipXY.cols).foldlM _ M = _
    rw [convWindow_ok (cellIdx W.flipXY.rows W.flipXY.cols) M ?bnd
      (by omega) (by omega) (by omega)]
    case bnd =>
      intro q hq
      have hqm := mem_cellIdx.1 hq
      refine ⟨?_, ?_, ?_, hqm.1, hqm.2, ?_⟩
      · show t.1 + q.1 < A.rows + W.flipXY.rows / 2 * 2
        rw [hfr] at hqm ⊢
        omega
      · show t.2.1 + q.2 < A.cols + W.flipXY.cols / 2 * 2
        rw [hfc] at hqm ⊢
        omega
      · show t.2.2 < A.chls
        omega
      · rw [hfch]
        omega
    rw [h1, h2, h3]
  obtain ⟨d2, hfold2, h2in, h2out⟩ := HF
  obtain ⟨d3, hnorm, h3in, h3out⟩ :=
    normalize_ok (A := ⟨A.rows, A.cols, A.chls, d2⟩) (by simpa using by omega)
  obtain ⟨df, hfinal, hfin, hfout⟩ :=
    copy_ok (A := (⟨A.rows, A.cols, A.chls, d3⟩ : Matrix)) (T := A)
      (y := 0) (z := 0) (by simp) (by simp)
  refine ⟨df, ?_, ?_, ?_⟩
  · unfold convolution
    rw [if_neg (by omega)]
    by_cases hcond : w0.chls = 1 ∧ 1 < A.chls
    · rw [if_pos hcond] at hW
      rw [if_pos hcond, hW]
      simp only [ok_bind]
      rw [if_neg (by rcases hWch with h | h <;> rw [h, hch] <;> simp)]
      rw [hz1]
      simp only [ok_bind]
      rw [hda]
      simp only [ok_bind]
      show (zeros (A.rows + W.flipXY.rows / 2 * 2) (A.cols + W.flipXY.cols / 2 * 2)
        A.chls).bind _ = _
      rw [hz2]
      show (Matrix.copy A _ _ _).bind _ = _
      rw [hpadeq]
      show ((List.foldlM _ _ (tripleIdx A.rows A.cols (min A.chls 3)) :
        Except JsError Matrix) >>= _) = _
      rw [hfold2]
      show (normalize _).bind _ = _
      rw [hnorm]
      exact hfinal
    · rw [if_neg hcond] at hW
      have hWw : w0 = W := by injection hW
      subst hWw
      rw [if_neg hcond]
      simp only [ok_bind]
      rw [if_neg (by rcases hWch with h | h <;> rw [h, hch] <;> simp)]
      rw [hz1]
      simp only [ok_bind]
      rw [hda]
      simp only [ok_bind]
      show (zeros (A.rows + w0.flipXY.rows / 2 * 2) (A.cols + w0.flipXY.cols / 2 * 2)
        A.chls).bind _ = _
      rw [hz2]
      show (Matrix.copy A _ _ _).bind _ = _
      rw [hpadeq]
      show ((List.foldlM _ _ (tripleIdx A.rows A.cols (min A.chls 3)) :
        Except JsError Matrix) >>= _) = _
      rw [hfold2]
      show (normalize _).bind _ = _
      rw [hnorm]
      exact hfinal
  · intro i j k hi hj hk
    have h1 := hfin i j hi hj k
    simp only [Nat.add_zero] at h1
    rw [h1]
    have hmax : max A.chls 1 = 4 := by rw [hch]; rfl
    have h2 := h3in (i, j, k) (by
      rw [mem_applyAllIdx]
      refine ⟨hi, hj, ?_⟩
      show k < max A.chls 1
      omega)
    simp only at h2
    rw [h2]
    have hmin : min A.chls 3 = 3 := by rw [hch]; rfl
    have h3 := h2in (i, j, k) (by
      rw [mem_tripleIdx]
      refine ⟨hi, hj, ?_⟩
      show k < min A.chls 3
      omega)
    simp only at h3
    rw [h3]
    have h4 := hdain i j hi hj k
    simp only at h4
    rw [h4, if_neg (by omega), zero_add, hlist]
    have hmap : ((cellIdx w0.rows w0.cols).map fun q =>
        dpad (i + q.1) (j + q.2) k * W.flipXY.data q.1 q.2 k) =
        ((cellIdx w0.rows w0.cols).map fun q =>
          (if w0.rows / 2 ≤ i + q.1 ∧ i + q.1 < A.rows + w0.rows / 2 ∧
              w0.cols / 2 ≤ j + q.2 ∧ j + q.2 < A.cols + w0.cols / 2
            then A.data (i + q.1 - w0.rows / 2) (j + q.2 - w0.cols / 2) k else 0) *
          W.flipXY.data q.1 q.2 k) := by
      apply List.map_congr_left
      intro q hq
      have hqm := mem_cellIdx.1 hq
      rw [hpadval (i + q.1) (j + q.2) k (by rw [hfr]; omega) (by rw [hfc]; omega)]
    rw [hmap]
  · intro i j hi hj
    have h1 := hfin i j hi hj 3
    simp only [Nat.add_zero] at h1
    rw [h1]
    have hmax : max A.chls 1 = 4 := by rw [hch]; rfl
    have h2 := h3in (i, j, 3) (by
      rw [mem_applyAllIdx]
      refine ⟨hi, hj, ?_⟩
      show 3 < max A.chls 1
      omega)
    simp only at h2
    rw [h2]
    have hmin : min A.chls 3 = 3 := by rw [hch]; rfl
    have h3 := h2out (i, j, 3) (by
      rw [mem_tripleIdx]
      push_neg
      intro _ _
      show min A.chls 3 ≤ 3
      omega)
    simp only at h3
    rw [h3]
    have h4 := hdain i j hi hj 3
    rw [h4, if_pos rfl, clip_one]

theorem error_bind {α β : Type} (e : JsError) (f : α → Except JsError β) :
    ((Except.error e : Except JsError α) >>= f) = .error e := rfl

/-- On a nonempty image with 1-3 channels, once the kernel passes the
oddness check and the channel reconciliation, the accumulator's
`fillAlpha(1)` throws RangeError: channel index 3 is out of range. -/
theorem convolution_err_lowch {A w0 : Matrix} (hr : 1 ≤ A.rows) (hc : 1 ≤ A.cols)
    (hch1 : 1 ≤ A.chls) (hch3 : A.chls ≤ 3)
    (hodr : w0.rows % 2 = 1) (hodc : w0.cols % 2 = 1)
    (hwch : w0.chls = 1 ∨ w0.chls = A.chls) :
    convolution A w0 = .error .rangeError := by
  have hz1 : zeros A.rows A.cols A.chls =
      .ok ⟨A.rows, A.cols, A.chls, fun _ _ _ => 0⟩ := by
    unfold zeros generateNat
    rw [if_neg]
    push_neg
    exact ⟨by omega, by omega, by omega⟩
  have hfa := fillAlpha_err (A := (⟨A.rows, A.cols, A.chls, fun _ _ _ => 0⟩ : Matrix))
    1 hch3 hr hc
  unfold convolution
  rw [if_neg (by omega)]
  by_cases hcond : w0.chls = 1 ∧ 1 < A.chls
  · obtain ⟨dw, hw, hwin, hwout⟩ := extrude_ok (A := w0) (n := A.chls)
      (by omega) (by omega)
    rw [if_pos hcond, hw]
    simp only [ok_bind]
    rw [if_neg (by intro hcc; exact hcc.1 trivial)]
    rw [hz1]
    simp only [ok_bind]
    rw [hfa]
    rfl
  · have heq : w0.chls = A.chls := by
      rcases hwch with h | h
      · omega
      · exact h
    rw [if_neg hcond]
    simp only [ok_bind]
    rw [if_neg (by intro hcc; exact hcc.1 heq)]
    rw [hz1]
    simp only [ok_bind]
    rw [hfa]
    rfl

/-- Claim C1: convolving an image with the identity kernel (the 3×3 kernel
with a single 1 in the center) leaves every color-channel value (channels
0..2) unchanged at every pixel and sets the alpha channel (index 3) to 1.
As proved, this holds for nonempty 4-channel images whose color values lie
in [0, 1] (values outside that interval are clipped, and images with fewer
than 4 channels throw a RangeError instead — see the counterexample). -/
theorem identity_convolution_ok (A : Matrix) (hr : 1 ≤ A.rows) (hc : 1 ≤ A.cols)
    (hch : A.chls = 4)
    (hval : ∀ i j k, i < A.rows → j < A.cols → k < 3 →
      0 ≤ A.data i j k ∧ A.data i j k ≤ 1) :
    ∃ res, convolution A identityKernel = .ok res ∧
      res.rows = A.rows ∧ res.cols = A.cols ∧ res.chls = A.chls ∧
      ∀ i j, i < A.rows → j < A.cols →
        (∀ k, k < 3 → res.data i j k = A.data i j k) ∧ res.data i j 3 = 1 := by
  have hidr : identityKernel.rows = 3 := rfl
  have hidc2 : identityKernel.cols = 3 := rfl
  have hidch : identityKernel.chls = 1 := rfl
  obtain ⟨dw, hw, hwin, hwout⟩ := extrude_ok (A := identityKernel) (n := A.chls)
    (by omega) (by omega)
  have hW : (if identityKernel.chls = 1 ∧ 1 < A.chls then identityKernel.extrude A.chls
      else .ok identityKernel) =
      .ok (⟨identityKernel.rows, identityKernel.cols, A.chls, dw⟩ : Matrix) := by
    rw [if_pos ⟨hidch, by omega⟩]
    exact hw
  have hdwv : ∀ a b : ℕ, a < 3 → b < 3 → ∀ k, dw a b k = identityKernel.data a b 0 := by
    intro a b ha hb k
    have h := hwin a b (by omega) (by omega) k
    rw [h]
    by_cases hk : identityKernel.chls ≤ k
    · rw [if_pos hk]
      rfl
    · rw [if_neg hk]
      rfl
  have hcoefv : ∀ a b : ℕ, a < 3 → b < 3 → ∀ k,
      (Matrix.flipXY (⟨3, 3, A.chls, dw⟩ : Matrix)).data
        a b k = if a = 1 ∧ b = 1 then (1 : ℚ) else 0 := by
    intro a b ha hb k
    unfold Matrix.flipXY Matrix.flipX Matrix.flipY
    norm_num
    rw [show List.range 2 = [0, 1] from rfl]
    simp only [List.foldl_cons, List.foldl_nil, Matrix.swapCol, Matrix.swapRow]
    norm_num
    rw [show List.range 2 = [0, 1] from rfl]
    simp only [List.foldl_cons, List.foldl_nil, Matrix.swapCol, Matrix.swapRow]
    interval_cases a <;> interval_cases b <;> (norm_num [hdwv]; try rfl)
  obtain ⟨d', hconv, hcolor, halpha⟩ := convolution_spec hr hc hch
    (by omega) (by omega) hW rfl rfl (Or.inr hch)
  refine ⟨⟨A.rows, A.cols, A.chls, d'⟩, hconv, rfl, rfl, rfl, ?_⟩
  intro i j hi hj
  refine ⟨?_, halpha i j hi hj⟩
  intro k hk
  have hc1 := hcolor i j k hi hj hk
  rw [hidr, hidc2] at hc1
  rw [show cellIdx 3 3 = [(0, 0), (0, 1), (0, 2), (1, 0), (1, 1), (1, 2),
    (2, 0), (2, 1), (2, 2)] from rfl] at hc1
  simp only [List.map_cons, List.map_nil, List.sum_cons, List.sum_nil] at hc1
  rw [hcoefv 0 0 (by omega) (by omega), hcoefv 0 1 (by omega) (by omega),
    hcoefv 0 2 (by omega) (by omega), hcoefv 1 0 (by omega) (by omega),
    hcoefv 1 1 (by omega) (by omega), hcoefv 1 2 (by omega) (by omega),
    hcoefv 2 0 (by omega) (by omega), hcoefv 2 1 (by omega) (by omega),
    hcoefv 2 2 (by omega) (by omega)] at hc1
  norm_num at hc1
  show d' i j k = A.data i j k
  rw [hc1, if_pos ⟨hi, hj⟩]
  exact clip_of_le (hval i j k hi hj hk).1 (hval i j k hi hj hk).2

/-- `crop` with a nonempty rectangle inside the source extents: the result
has the `|x2−x1| × |y2−y1|` shape at `A`'s channel count and every cell
equals `A`'s cell at the min-corner offset. -/
theorem crop_ok {A : Matrix} {x1 y1 x2 y2 : Nat}
    (hx : min x1 x2 < max x1 x2) (hy : min y1 y2 < max y1 y2)
    (hxA : max x1 x2 ≤ A.rows) (hyA : max y1 y2 ≤ A.cols) (hch : 1 ≤ A.chls) :
    ∃ d', crop A x1 y1 x2 y2 =
        .ok ⟨max x1 x2 - min x1 x2, max y1 y2 - min y1 y2, A.chls, d'⟩ ∧
      ∀ i j, i < max x1 x2 - min x1 x2 → j < max y1 y2 - min y1 y2 →
        ∀ k, d' i j k = A.data (i + min x1 x2) (j + min y1 y2) k := by
  have hgen : generateNat (max x1 x2 - min x1 x2) (max y1 y2 - min y1 y2) A.chls 0 =
      .ok ⟨max x1 x2 - min x1 x2, max y1 y2 - min y1 y2, A.chls, fun _ _ _ => 0⟩ := by
    unfold generateNat
    rw [if_neg]
    push_neg
    exact ⟨by omega, by omega, by omega⟩
  have H := foldlM_cellwise (r := max x1 x2 - min x1 x2) (c := max y1 y2 - min y1 y2)
    (n := A.chls)
    (fun (M : Matrix) p => do
      let cell ← A.getCell (p.1 + min x1 x2) (p.2 + min y1 y2)
      M.setCell p.1 p.2 cell)
    (fun p => p)
    (fun _ p k => A.data (p.1 + min x1 x2) (p.2 + min y1 y2) k) (fun _ => [])
    (cellIdx (max x1 x2 - min x1 x2) (max y1 y2 - min y1 y2)) (cellIdx_nodup ..)
    ?hsep ?hF ?hstep
    ⟨max x1 x2 - min x1 x2, max y1 y2 - min y1 y2, A.chls, fun _ _ _ => 0⟩ rfl rfl rfl
  case hsep =>
    intro t _ p _ _ hmem
    simp at hmem
  case hF =>
    intro d d' p _ _ k
    rfl
  case hstep =>
    intro M p hp h1 h2 h3
    have hp2 := mem_cellIdx.1 hp
    show ((A.getCell (p.1 + min x1 x2) (p.2 + min y1 y2)).bind fun cell =>
      M.setCell p.1 p.2 cell) = _
    rw [getCell_ok (by omega) (by omega)]
    show M.setCell p.1 p.2 (A.data (p.1 + min x1 x2) (p.2 + min y1 y2)) = _
    rw [setCell_ok (by omega) (by omega), h1, h2, h3]
  obtain ⟨d', hfold, hin, _⟩ := H
  refine ⟨d', ?_, ?_⟩
  · unfold crop
    rw [hgen]
    simp only [ok_bind]
    exact hfold
  · intro i j hi hj k
    refine hin (i, j) (mem_cellIdx.2 ⟨hi, hj⟩) ?_ k
    intro p _ h
    exact h

/-- One expansion step grows the row by one entry (for nonempty rows). -/
theorem pascalStep_length {l : List ℚ} (h : 1 ≤ l.length) :
    (pascalStep l).length = l.length + 1 := by
  unfold pascalStep
  simp only [List.cons_append, List.length_cons, List.length_append,
    List.length_zipWith, List.length_tail, List.length_cons, List.length_nil]
  omega

/-- Adjacent sums of positive lists are positive. -/
theorem zipWith_add_pos {l l' : List ℚ} (h : ∀ x ∈ l, 0 < x)
    (h' : ∀ x ∈ l', 0 < x) :
    ∀ x ∈ List.zipWith (· + ·) l l', 0 < x := by
  induction l generalizing l' with
  | nil => simp
  | cons a t ih =>
    cases l' with
    | nil => simp
    | cons b t' =>
      intro x hx
      rcases List.mem_cons.1 hx with hx | hx
      · subst hx
        exact add_pos (h a (by simp)) (h' b (by simp))
      · exact ih (fun y hy => h y (by simp [hy]))
          (fun y hy => h' y (by simp [hy])) x hx

/-- One expansion step keeps every entry positive. -/
theorem pascalStep_pos {l : List ℚ} (h : ∀ x ∈ l, 0 < x) :
    ∀ x ∈ pascalStep l, 0 < x := by
  intro x hx
  unfold pascalStep at hx
  rcases List.mem_cons.1 hx with hx | hx
  · subst hx
    norm_num
  · rcases List.mem_append.1 hx with hx | hx
    · exact zipWith_add_pos h (fun y hy => h y (List.mem_of_mem_tail hy)) x hx
    · simp only [List.mem_singleton] at hx
      subst hx
      norm_num

/-- The loop's row after `m` iterations has `m + 2` entries. -/
theorem pascalLoop_length (m : Nat) : (pascalLoop m).length = m + 2 := by
  induction m with
  | zero => rfl
  | succ n ih =>
    show (pascalStep (pascalLoop n)).length = n + 3
    rw [pascalStep_length (by rw [ih]; omega), ih]

/-- Every entry of the loop's row is positive. -/
theorem pascalLoop_pos (m : Nat) : ∀ x ∈ pascalLoop m, 0 < x := by
  induction m with
  | zero =>
    intro x hx
    rcases List.mem_cons.1 hx with hx | hx
    · subst hx
      norm_num
    · simp only [List.mem_singleton] at hx
      subst hx
      norm_num
  | succ n ih => exact pascalStep_pos ih

/-- `pascal n` has `n` entries, for n ≥ 1. -/
theorem pascal_length {n : Nat} (h : 1 ≤ n) : (pascal n).length = n := by
  unfold pascal
  by_cases h1 : n = 1
  · rw [if_pos h1, h1]
    rfl
  · by_cases h2 : n = 2
    · rw [if_neg h1, if_pos h2, h2]
      rfl
    · rw [if_neg h1, if_neg h2, pascalLoop_length]
      omega

/-- Every entry of `pascal n` is positive. -/
theorem pascal_pos (n : Nat) : ∀ x ∈ pascal n, 0 < x := by
  unfold pascal
  by_cases h1 : n = 1
  · rw [if_pos h1]
    intro x hx
    simp only [List.mem_singleton] at hx
    subst hx
    norm_num
  · by_cases h2 : n = 2
    · rw [if_neg h1, if_pos h2]
      intro x hx
      rcases List.mem_cons.1 hx with hx | hx
      · subst hx
        norm_num
      · simp only [List.mem_singleton] at hx
        subst hx
        norm_num
    · rw [if_neg h1, if_neg h2]
      exact pascalLoop_pos (n - 2)

/-- The sum of `pascal n` is positive, for n ≥ 1. -/
theorem pascal_sum_pos {n : Nat} (h : 1 ≤ n) : 0 < (pascal n).sum := by
  refine List.sum_pos _ (pascal_pos n) ?_
  intro he
  have := pascal_length h
  rw [he] at this
  simp at this
  omega

/-- Summing the `getD` reads over a list's index range gives the list's
sum. -/
theorem sum_getD_range (l : List ℚ) :
    ((List.range l.length).map fun i => l.getD i 0).sum = l.sum := by
  induction l with
  | nil => rfl
  | cons a t ih =>
    rw [List.length_cons, List.range_succ_eq_map, List.map_cons, List.map_map,
      List.sum_cons]
    simp only [Function.comp_def, List.getD_cons_succ, List.getD_cons_zero]
    rw [ih, List.sum_cons]

/-- Mapping a division by a constant over a list divides its sum. -/
theorem sum_map_div {α : Type} (l : List α) (f : α → ℚ) (c : ℚ) :
    (l.map fun x => f x / c).sum = (l.map f).sum / c := by
  induction l with
  | nil => simp
  | cons a t ih =>
    rw [List.map_cons, List.sum_cons, ih, List.map_cons, List.sum_cons, add_div]

/-- The accumulation loop of `gaussianBlur` sums the first-row reads. -/
theorem gaussSumFold_ok {W : Matrix} (hr : 1 ≤ W.rows) :
    ∀ l : List Nat, (∀ i ∈ l, i < W.cols) → ∀ s : ℚ,
      (l.foldlM (fun s i => do
        let x ← W.get2 0 i
        .ok (s + x)) s) = .ok (s + (l.map fun i => W.data 0 i 0).sum) := by
  intro l
  induction l with
  | nil =>
    intro _ s
    show Except.ok s = _
    rw [List.map_nil, List.sum_nil, add_zero]
  | cons a t ih =>
    intro hmem s
    rw [List.foldlM_cons]
    show ((W.get2 0 a).bind fun x => Except.ok (s + x)).bind _ = _
    rw [get2_ok (by omega) (hmem a (by simp))]
    show List.foldlM (fun (s : ℚ) (i : Nat) => do
        let x ← W.get2 0 i
        Except.ok (s + x)) (s + W.data 0 a 0) t =
      Except.ok (s + (List.map (fun i => W.data 0 i 0) (a :: t)).sum)
    rw [ih (fun i hi => hmem i (by simp [hi])) (s + W.data 0 a 0)]
    rw [List.map_cons, List.sum_cons, add_assoc]

/-- The column-kernel literal reads back the original entries. -/
theorem getD_map_singleton (l : List ℚ) :
    ∀ i, i < l.length → ((l.map fun x => [x]).getD i []).getD 0 0 = l.getD i 0 := by
  induction l with
  | nil => simp
  | cons a t ih =>
    intro i hi
    cases i with
    | zero => rfl
    | succ m =>
      rw [List.map_cons, List.getD_cons_succ, List.getD_cons_succ]
      exact ih m (by simpa using hi)

/-- `gaussianBlur(n)` for n ≥ 1: a `1 × n` row kernel and an `n × 1` column
kernel, each holding `pascal n` divided by its sum, so each kernel's entries
sum to 1. -/
theorem gaussianBlur_ok {n : Nat} (h1 : 1 ≤ n) :
    ∃ row col, gaussianBlur n = .ok (row, col) ∧
      row.rows = 1 ∧ row.cols = n ∧ col.rows = n ∧ col.cols = 1 ∧
      (∀ j, j < n → row.data 0 j 0 = (pascal n).getD j 0 / (pascal n).sum) ∧
      (∀ i, i < n → col.data i 0 0 = (pascal n).getD i 0 / (pascal n).sum) ∧
      ((List.range n).map fun j => row.data 0 j 0).sum = 1 ∧
      ((List.range n).map fun i => col.data i 0 0).sum = 1 := by
  have hlen : (pascal n).length = n := pascal_length h1
  have hsum : 0 < (pascal n).sum := pascal_sum_pos h1
  obtain ⟨a, t, hp⟩ : ∃ a t, pascal n = a :: t := by
    cases hp : pascal n with
    | nil =>
      rw [hp] at hlen
      simp at hlen
      omega
    | cons a t => exact ⟨a, t, rfl⟩
  have hw0r : (load2 [pascal n]).rows = 1 := rfl
  have hw0c : (load2 [pascal n]).cols = n := hlen
  have hw0d : ∀ j, (load2 [pascal n]).data 0 j 0 = (pascal n).getD j 0 :=
    fun j => rfl
  have hw1r : (load2 ((pascal n).map fun x => [x])).rows = n := by
    show ((pascal n).map fun x => [x]).length = n
    rw [List.length_map, hlen]
  have hw1c : (load2 ((pascal n).map fun x => [x])).cols = 1 := by
    show ((((pascal n).map fun x => [x]).headD [])).length = 1
    rw [hp]
    rfl
  have hw1d : ∀ i, i < n → (load2 ((pascal n).map fun x => [x])).data i 0 0 =
      (pascal n).getD i 0 := by
    intro i hi
    exact getD_map_singleton (pascal n) i (by omega)
  have key : ∀ l : List ℚ, l.length = n →
      ((List.range n).map fun i => l.getD i 0).sum = l.sum := by
    intro l hl
    rw [← hl]
    exact sum_getD_range l
  have hfold := gaussSumFold_ok (W := load2 [pascal n]) (by omega)
    (List.range n) (by intro i hi; rw [hw0c]; exact List.mem_range.1 hi) 0
  have hmapsum : ((List.range n).map fun i => (load2 [pascal n]).data 0 i 0).sum =
      (pascal n).sum := by
    have h2 : ((List.range n).map fun i => (load2 [pascal n]).data 0 i 0) =
        ((List.range n).map fun i => (pascal n).getD i 0) := rfl
    rw [h2]
    exact key (pascal n) hlen
  have hS : (0 : ℚ) + ((List.range n).map fun i => (load2 [pascal n]).data 0 i 0).sum =
      (pascal n).sum := by
    rw [hmapsum, zero_add]
  have hSne : (0 : ℚ) + ((List.range n).map fun i => (load2 [pascal n]).data 0 i 0).sum ≠ 0 := by
    rw [hS]
    exact ne_of_gt hsum
  obtain ⟨d0, hdiv0, hin0, _⟩ := div_ok (A := load2 [pascal n]) hSne
  obtain ⟨d1, hdiv1, hin1, _⟩ := div_ok (A := load2 ((pascal n).map fun x => [x])) hSne
  have hch0 : (load2 [pascal n]).chls = 1 := rfl
  have hch1 : (load2 ((pascal n).map fun x => [x])).chls = 1 := rfl
  have hrowd : ∀ j, j < n → d0 0 j 0 = (pascal n).getD j 0 / (pascal n).sum := by
    intro j hj
    have hmem : ((0 : Nat), (j, (0 : Nat))) ∈ applyAllIdx (load2 [pascal n]) := by
      apply mem_applyAllIdx.2
      refine ⟨?_, ?_, ?_⟩
      · show (0 : Nat) < (load2 [pascal n]).rows
        rw [hw0r]
        norm_num
      · show j < (load2 [pascal n]).cols
        rw [hw0c]
        exact hj
      · show (0 : Nat) < max (load2 [pascal n]).chls 1
        rw [hch0]
        norm_num
    have := hin0 (0, j, 0) hmem
    rw [this, hw0d j, hS]
  have hcold : ∀ i, i < n → d1 i 0 0 = (pascal n).getD i 0 / (pascal n).sum := by
    intro i hi
    have hmem : ((i : Nat), ((0 : Nat), (0 : Nat))) ∈
        applyAllIdx (load2 ((pascal n).map fun x => [x])) := by
      apply mem_applyAllIdx.2
      refine ⟨?_, ?_, ?_⟩
      · show i < (load2 ((pascal n).map fun x => [x])).rows
        rw [hw1r]
        exact hi
      · show (0 : Nat) < (load2 ((pascal n).map fun x => [x])).cols
        rw [hw1c]
        norm_num
      · show (0 : Nat) < max (load2 ((pascal n).map fun x => [x])).chls 1
        rw [hch1]
        norm_num
    have := hin1 (i, 0, 0) hmem
    rw [this, hw1d i hi, hS]
  refine ⟨⟨(load2 [pascal n]).rows, (load2 [pascal n]).cols, (load2 [pascal n]).chls, d0⟩,
    ⟨(load2 ((pascal n).map fun x => [x])).rows, (load2 ((pascal n).map fun x => [x])).cols,
      (load2 ((pascal n).map fun x => [x])).chls, d1⟩, ?_, hw0r, hw0c, hw1r, hw1c,
    hrowd, hcold, ?_, ?_⟩
  · simp only [gaussianBlur]
    rw [hfold]
    simp only [ok_bind]
    rw [hdiv0]
    simp only [ok_bind]
    rw [hdiv1]
    rfl
  · have h3 : ((List.range n).map fun j =>
        (⟨(load2 [pascal n]).rows, (load2 [pascal n]).cols, (load2 [pascal n]).chls,
          d0⟩ : Matrix).data 0 j 0).sum =
        ((List.range n).map fun j => (pascal n).getD j 0 / (pascal n).sum).sum := by
      apply congrArg
      apply List.map_congr_left
      intro j hj
      exact hrowd j (List.mem_range.1 hj)
    rw [h3, sum_map_div, key (pascal n) hlen]
    exact div_self (ne_of_gt hsum)
  · have h3 : ((List.range n).map fun i =>
        (⟨(load2 ((pascal n).map fun x => [x])).rows,
          (load2 ((pascal n).map fun x => [x])).cols,
          (load2 ((pascal n).map fun x => [x])).chls, d1⟩ : Matrix).data i 0 0).sum =
        ((List.range n).map fun i => (pascal n).getD i 0 / (pascal n).sum).sum := by
      apply congrArg
      apply List.map_congr_left
      intro i hi
      exact hcold i (List.mem_range.1 hi)
    rw [h3, sum_map_div, key (pascal n) hlen]
    exact div_self (ne_of_gt hsum)

theorem alphaSame_refl (A : Matrix) : alphaSame A A :=
  ⟨rfl, rfl, rfl, fun _ _ => rfl⟩

theorem alphaSame_trans {A B C : Matrix} (h1 : alphaSame A B)
    (h2 : alphaSame B C) : alphaSame A C := by
  obtain ⟨r1, c1, ch1, d1⟩ := h1
  obtain ⟨r2, c2, ch2, d2⟩ := h2
  exact ⟨r2.trans r1, c2.trans c1, ch2.trans ch1,
    fun i j => (d2 i j).trans (d1 i j)⟩

/-- A successful `set` at a channel other than 3 leaves shape and alpha
untouched. -/
theorem set3_alphaSame {M : Matrix} {i j k : Nat} {v : ℚ} (hk : k ≠ 3)
    {M' : Matrix} (h : M.set3 i j k v = .ok M') : alphaSame M M' := by
  unfold Matrix.set3 at h
  by_cases hb : M.rows ≤ i ∨ M.cols ≤ j ∨ M.chls ≤ k
  · rw [if_pos hb] at h
    exact absurd h (by simp)
  · rw [if_neg hb] at h
    have h2 : (⟨M.rows, M.cols, M.chls, upd M.data (i, j, k) v⟩ : Matrix) = M' := by
      injection h
    subst h2
    refine ⟨rfl, rfl, rfl, fun a b => ?_⟩
    show upd M.data (i, j, k) v a b 3 = M.data a b 3
    unfold upd
    rw [if_neg]
    intro ⟨_, _, h3⟩
    exact hk h3.symm

/-- A successful whole-cell `set` whose cell keeps the old alpha value
leaves shape and alpha untouched. -/
theorem setCell_alphaSame {M : Matrix} {i j : Nat} {cell : Nat → ℚ}
    (hc : cell 3 = M.data i j 3) {M' : Matrix}
    (h : M.setCell i j cell = .ok M') : alphaSame M M' := by
  unfold Matrix.setCell at h
  by_cases hb : M.rows ≤ i ∨ M.cols ≤ j
  · rw [if_pos hb] at h
    exact absurd h (by simp)
  · rw [if_neg hb] at h
    have h2 : (⟨M.rows, M.cols, M.chls, updCell M.data (i, j) cell⟩ : Matrix) = M' := by
      injection h
    subst h2
    refine ⟨rfl, rfl, rfl, fun a b => ?_⟩
    show updCell M.data (i, j) cell a b 3 = M.data a b 3
    unfold updCell
    by_cases hab : a = (i, j).1 ∧ b = (i, j).2
    · rw [if_pos hab, hc]
      simp only at hab
      rw [hab.1, hab.2]
    · rw [if_neg hab]

/-- Any loop whose steps preserve shape and alpha preserves them overall. -/
theorem foldlM_alphaSame {ι : Type} (step : Matrix → ι → Except JsError Matrix)
    (L : List ι)
    (hstep : ∀ M t, t ∈ L → ∀ M', step M t = .ok M' → alphaSame M M') :
    ∀ M M', L.foldlM step M = .ok M' → alphaSame M M' := by
  induction L with
  | nil =>
    intro M M' h
    rw [List.foldlM_nil] at h
    have h' : (Except.ok M : Except JsError Matrix) = Except.ok M' := h
    have h2 : M = M' := by injection h'
    subst h2
    exact alphaSame_refl M
  | cons a t ih =>
    intro M M' h
    rw [List.foldlM_cons] at h
    cases hs : step M a with
    | error e =>
      rw [hs] at h
      exact absurd (show (Except.error e : Except JsError Matrix) = .ok M' from h)
        (by simp)
    | ok M1 =>
      rw [hs] at h
      exact alphaSame_trans (hstep M a (by simp) M1 hs)
        (ih (fun M2 u hu M3 hs3 => hstep M2 u (by simp [hu]) M3 hs3) M1 M' h)

/-- Whenever a simple blend completes, its result keeps the base operand's
shape and its alpha channel everywhere. -/
theorem pixelBlend_alphaSame {f : ℚ → ℚ → ℚ} {A B R : Matrix}
    (h : pixelBlend f A B = .ok R) : alphaSame A R := by
  refine foldlM_alphaSame _ (tripleIdx A.rows A.cols 3) ?_ A R h
  intro M t ht M' hs
  have htm := mem_tripleIdx.1 ht
  cases h1 : M.get3 t.1 t.2.1 t.2.2 with
  | error e =>
    rw [h1] at hs
    exact absurd (show (Except.error e : Except JsError Matrix) = .ok M' from hs)
      (by simp)
  | ok a =>
    rw [h1] at hs
    cases h2 : B.get3 t.1 t.2.1 t.2.2 with
    | error e =>
      rw [h2] at hs
      exact absurd (show (Except.error e : Except JsError Matrix) = .ok M' from hs)
        (by simp)
    | ok b =>
      rw [h2] at hs
      exact set3_alphaSame (by omega)
        (show M.set3 t.1 t.2.1 t.2.2 (f a b) = .ok M' from hs)

/-- Whenever `normal` completes, its result keeps the base operand's shape
and its alpha channel everywhere. -/
theorem normal_alphaSame {A B R : Matrix} (h : normal A B = .ok R) :
    alphaSame A R := by
  refine foldlM_alphaSame _ (tripleIdx A.rows A.cols 3) ?_ A R h
  intro M t ht M' hs
  have htm := mem_tripleIdx.1 ht
  cases h1 : M.get3 t.1 t.2.1 3 with
  | error e =>
    rw [h1] at hs
    exact absurd (show (Except.error e : Except JsError Matrix) = .ok M' from hs)
      (by simp)
  | ok aa =>
    rw [h1] at hs
    cases h2 : B.get3 t.1 t.2.1 3 with
    | error e =>
      rw [h2] at hs
      exact absurd (show (Except.error e : Except JsError Matrix) = .ok M' from hs)
        (by simp)
    | ok ba =>
      rw [h2] at hs
      cases h3 : M.get3 t.1 t.2.1 t.2.2 with
      | error e =>
        rw [h3] at hs
        exact absurd (show (Except.error e : Except JsError Matrix) = .ok M' from hs)
          (by simp)
      | ok ac =>
        rw [h3] at hs
        cases h4 : B.get3 t.1 t.2.1 t.2.2 with
        | error e =>
          rw [h4] at hs
          exact absurd
            (show (Except.error e : Except JsError Matrix) = .ok M' from hs) (by simp)
        | ok bc =>
          rw [h4] at hs
          exact set3_alphaSame (by omega)
            (show M.set3 t.1 t.2.1 t.2.2
              ((ac * aa + bc * ba * (1 - aa)) / (aa + ba * (1 - aa))) = .ok M' from hs)

/-- Whenever `invert` completes, its result keeps the base operand's shape
and its alpha channel everywhere (`setPixel` writes channels 0-2 only). -/
theorem invert_alphaSame {A R : Matrix} (h : invert A = .ok R) :
    alphaSame A R := by
  refine foldlM_alphaSame _ (cellIdx A.rows A.cols) ?_ A R h
  intro M p _ M' hs
  cases h1 : M.get3 p.1 p.2 0 with
  | error e =>
    rw [h1] at hs
    exact absurd (show (Except.error e : Except JsError Matrix) = .ok M' from hs)
      (by simp)
  | ok r =>
    rw [h1] at hs
    cases h2 : M.get3 p.1 p.2 1 with
    | error e =>
      rw [h2] at hs
      exact absurd (show (Except.error e : Except JsError Matrix) = .ok M' from hs)
        (by simp)
    | ok g =>
      rw [h2] at hs
      cases h3 : M.get3 p.1 p.2 2 with
      | error e =>
        rw [h3] at hs
        exact absurd (show (Except.error e : Except JsError Matrix) = .ok M' from hs)
          (by simp)
      | ok b =>
        rw [h3] at hs
        have hs2 : (if M.chls < 3 then (.error .genericError : Except JsError Matrix)
            else M.setCell p.1 p.2 (fun k =>
              if k = 0 then 1 - r else if k = 1 then 1 - g
              else if k = 2 then 1 - b else M.data p.1 p.2 k)) = .ok M' := hs
        by_cases hch : M.chls < 3
        · rw [if_pos hch] at hs2
          exact absurd hs2 (by simp)
        · rw [if_neg hch] at hs2
          exact setCell_alphaSame (by norm_num) hs2

/-- The `color` dodge chain keeps `A`'s shape and alpha. -/
theorem dodge_color_alphaSame {A B R B' : Matrix}
    (h : dodge A B modeColor = .ok (R, B')) : alphaSame A R := by
  unfold dodge at h
  rw [if_neg (by decide), if_pos rfl] at h
  cases h1 : invert B with
  | error e =>
    rw [h1] at h
    exact absurd (show (Except.error e : Except JsError (Matrix × Matrix)) =
      .ok (R, B') from h) (by simp)
  | ok B1 =>
    rw [h1] at h
    simp only [ok_bind] at h
    cases h2 : divide A B1 with
    | error e =>
      rw [h2] at h
      exact absurd (show (Except.error e : Except JsError (Matrix × Matrix)) =
        .ok (R, B') from h) (by simp)
    | ok A1 =>
      rw [h2] at h
      simp only [ok_bind] at h
      cases h3 : invert B1 with
      | error e =>
        rw [h3] at h
        exact absurd (show (Except.error e : Except JsError (Matrix × Matrix)) =
          .ok (R, B') from h) (by simp)
      | ok B2 =>
        rw [h3] at h
        simp only [ok_bind] at h
        have h4 : (Except.ok (A1, B2) : Except JsError (Matrix × Matrix)) =
          .ok (R, B') := h
        have h5 : (A1, B2) = (R, B') := by injection h4
        have h6 : A1 = R := congrArg Prod.fst h5
        exact h6 ▸ pixelBlend_alphaSame h2

/-- Every completing `dodge` mode keeps `A`'s shape and alpha. -/
theorem dodge_alphaSame {A B : Matrix} {ty : String} {R B' : Matrix}
    (h : dodge A B ty = .ok (R, B')) : alphaSame A R := by
  by_cases hS : ty = modeScreen
  · subst hS
    unfold dodge at h
    rw [if_pos rfl] at h
    cases h1 : invert A with
    | error e =>
      rw [h1] at h
      exact absurd (show (Except.error e : Except JsError (Matrix × Matrix)) =
        .ok (R, B') from h) (by simp)
    | ok A1 =>
      rw [h1] at h
      simp only [ok_bind] at h
      cases h2 : invert B with
      | error e =>
        rw [h2] at h
        exact absurd (show (Except.error e : Except JsError (Matrix × Matrix)) =
          .ok (R, B') from h) (by simp)
      | ok B1 =>
        rw [h2] at h
        simp only [ok_bind] at h
        cases h3 : multiply A1 B1 with
        | error e =>
          rw [h3] at h
          exact absurd (show (Except.error e : Except JsError (Matrix × Matrix)) =
            .ok (R, B') from h) (by simp)
        | ok A2 =>
          rw [h3] at h
          simp only [ok_bind] at h
          cases h4 : invert A2 with
          | error e =>
            rw [h4] at h
            exact absurd (show (Except.error e : Except JsError (Matrix × Matrix)) =
              .ok (R, B') from h) (by simp)
          | ok A3 =>
            rw [h4] at h
            simp only [ok_bind] at h
            cases h5 : invert B1 with
            | error e =>
              rw [h5] at h
              exact absurd (show (Except.error e : Except JsError (Matrix × Matrix)) =
                .ok (R, B') from h) (by simp)
            | ok B2 =>
              rw [h5] at h
              simp only [ok_bind] at h
              have h6 : (Except.ok (A3, B2) : Except JsError (Matrix × Matrix)) =
                .ok (R, B') := h
              have h7 : (A3, B2) = (R, B') := by injection h6
              have h8 : A3 = R := congrArg Prod.fst h7
              exact h8 ▸ alphaSame_trans (invert_alphaSame h1)
                (alphaSame_trans (pixelBlend_alphaSame h3) (invert_alphaSame h4))
  · by_cases hC : ty = modeColor
    · subst hC
      exact dodge_color_alphaSame h
    · by_cases hL : ty = modeLinear
      · subst hL
        unfold dodge at h
        rw [if_neg (by decide), if_neg (by decide), if_pos rfl] at h
        cases h1 : addition A B with
        | error e =>
          rw [h1] at h
          exact absurd (show (Except.error e : Except JsError (Matrix × Matrix)) =
            .ok (R, B') from h) (by simp)
        | ok A1 =>
          rw [h1] at h
          simp only [ok_bind] at h
          have h2 : (Except.ok (A1, B) : Except JsError (Matrix × Matrix)) =
            .ok (R, B') := h
          have h3 : (A1, B) = (R, B') := by injection h2
          have h4 : A1 = R := congrArg Prod.fst h3
          exact h4 ▸ pixelBlend_alphaSame h1
      · by_cases hD : ty = modeDivide
        · subst hD
          unfold dodge at h
          rw [if_neg (by decide), if_neg (by decide), if_neg (by decide),
            dif_pos rfl] at h
          by_cases hw : B.isWhite
          · rw [if_pos hw] at h
            have h2 : (A, B) = (R, B') := by injection h
            have h3 : A = R := congrArg Prod.fst h2
            exact h3 ▸ alphaSame_refl A
          · rw [if_neg hw] at h
            exact dodge_color_alphaSame h
        · unfold dodge at h
          rw [if_neg hS, if_neg hC, if_neg hL, dif_neg hD] at h
          exact absurd (show (Except.error .dodgeError :
            Except JsError (Matrix × Matrix)) = .ok (R, B') from h) (by simp)

/-- Every completing `burn` mode keeps `A`'s shape and alpha. -/
theorem burn_alphaSame {A B : Matrix} {ty : String} {R B' : Matrix}
    (h : burn A B ty = .ok (R, B')) : alphaSame A R := by
  unfold burn at h
  by_cases hM : ty = modeMultiply
  · rw [if_pos hM] at h
    cases h1 : multiply A B with
    | error e =>
      rw [h1] at h
      exact absurd (show (Except.error e : Except JsError (Matrix × Matrix)) =
        .ok (R, B') from h) (by simp)
    | ok A1 =>
      rw [h1] at h
      simp only [ok_bind] at h
      have h2 : (A1, B) = (R, B') := by
        injection (show (Except.ok (A1, B) : Except JsError (Matrix × Matrix)) =
          .ok (R, B') from h)
      have h3 : A1 = R := congrArg Prod.fst h2
      exact h3 ▸ pixelBlend_alphaSame h1
  · rw [if_neg hM] at h
    by_cases hC : ty = modeColor
    · rw [if_pos hC] at h
      cases h1 : invert A with
      | error e =>
        rw [h1] at h
        exact absurd (show (Except.error e : Except JsError (Matrix × Matrix)) =
          .ok (R, B') from h) (by simp)
      | ok A1 =>
        rw [h1] at h
        simp only [ok_bind] at h
        cases h2 : divide A1 B with
        | error e =>
          rw [h2] at h
          exact absurd (show (Except.error e : Except JsError (Matrix × Matrix)) =
            .ok (R, B') from h) (by simp)
        | ok A2 =>
          rw [h2] at h
          simp only [ok_bind] at h
          cases h3 : invert A2 with
          | error e =>
            rw [h3] at h
            exact absurd (show (Except.error e : Except JsError (Matrix × Matrix)) =
              .ok (R, B') from h) (by simp)
          | ok A3 =>
            rw [h3] at h
            simp only [ok_bind] at h
            have h4 : (A3, B) = (R, B') := by
              injection (show (Except.ok (A3, B) : Except JsError (Matrix × Matrix)) =
                .ok (R, B') from h)
            have h5 : A3 = R := congrArg Prod.fst h4
            exact h5 ▸ alphaSame_trans (invert_alphaSame h1)
              (alphaSame_trans (pixelBlend_alphaSame h2) (invert_alphaSame h3))
    · rw [if_neg hC] at h
      by_cases hL : ty = modeLinear
      · rw [if_pos hL] at h
        cases h1 : pixelBlend (fun a b => a + b - 1) A B with
        | error e =>
          rw [h1] at h
          exact absurd (show (Except.error e : Except JsError (Matrix × Matrix)) =
            .ok (R, B') from h) (by simp)
        | ok A1 =>
          rw [h1] at h
          simp only [ok_bind] at h
          have h2 : (A1, B) = (R, B') := by
            injection (show (Except.ok (A1, B) : Except JsError (Matrix × Matrix)) =
              .ok (R, B') from h)
          have h3 : A1 = R := congrArg Prod.fst h2
          exact h3 ▸ pixelBlend_alphaSame h1
      · rw [if_neg hL] at h
        exact absurd (show (Except.error .burnError :
          Except JsError (Matrix × Matrix)) = .ok (R, B') from h) (by simp)

/-- Every completing `light` mode keeps `A`'s shape and alpha, for any
square-root model. -/
theorem light_alphaSame {sq : ℚ → ℚ} {A B : Matrix} {ty : String}
    {R B' : Matrix} (h : light sq A B ty = .ok (R, B')) : alphaSame A R := by
  unfold light at h
  by_cases hS : ty = modeSoft
  · rw [if_pos hS] at h
    cases h1 : pixelBlend (fun a b => if a < 1/2 then 2 * a * b + a ^ 2 * (1 - 2 * b)
        else 2 * a * (1 - b) + sq a * (2 * b - 1)) A B with
    | error e =>
      rw [h1] at h
      exact absurd (show (Except.error e : Except JsError (Matrix × Matrix)) =
        .ok (R, B') from h) (by simp)
    | ok A1 =>
      rw [h1] at h
      simp only [ok_bind] at h
      have h2 : (A1, B) = (R, B') := by
        injection (show (Except.ok (A1, B) : Except JsError (Matrix × Matrix)) =
          .ok (R, B') from h)
      have h3 : A1 = R := congrArg Prod.fst h2
      exact h3 ▸ pixelBlend_alphaSame h1
  · rw [if_neg hS] at h
    by_cases hH : ty = modeHard
    · rw [if_pos hH] at h
      cases h1 : pixelBlend (fun a b => if a < 1/2 then 2 * a * b
          else 1 - 2 * (1 - a) * (1 - b)) A B with
      | error e =>
        rw [h1] at h
        exact absurd (show (Except.error e : Except JsError (Matrix × Matrix)) =
          .ok (R, B') from h) (by simp)
      | ok A1 =>
        rw [h1] at h
        simp only [ok_bind] at h
        have h2 : (A1, B) = (R, B') := by
          injection (show (Except.ok (A1, B) : Except JsError (Matrix × Matrix)) =
            .ok (R, B') from h)
        have h3 : A1 = R := congrArg Prod.fst h2
        exact h3 ▸ pixelBlend_alphaSame h1
    · rw [if_neg hH] at h
      by_cases hV : ty = modeVivid
      · rw [if_pos hV] at h
        cases h1 : dodge A B modeColor with
        | error e =>
          rw [h1] at h
          exact absurd (show (Except.error e : Except JsError (Matrix × Matrix)) =
            .ok (R, B') from h) (by simp)
        | ok AB =>
          rw [h1] at h
          simp only [ok_bind] at h
          obtain ⟨A1, B1⟩ := AB
          have h2 : burn A1 B1 modeColor = .ok (R, B') := h
          exact alphaSame_trans (dodge_color_alphaSame h1) (burn_alphaSame h2)
      · rw [if_neg hV] at h
        by_cases hL : ty = modeLinear
        · rw [if_pos hL] at h
          cases h1 : dodge A B modeLinear with
          | error e =>
            rw [h1] at h
            exact absurd (show (Except.error e : Except JsError (Matrix × Matrix)) =
              .ok (R, B') from h) (by simp)
          | ok AB =>
            rw [h1] at h
            simp only [ok_bind] at h
            obtain ⟨A1, B1⟩ := AB
            have h2 : burn A1 B1 modeLinear = .ok (R, B') := h
            exact alphaSame_trans (dodge_alphaSame h1) (burn_alphaSame h2)
        · rw [if_neg hL] at h
          exact absurd (show (Except.error .lightError :
            Except JsError (Matrix × Matrix)) = .ok (R, B') from h) (by simp)

/-- Witness for C1: the identity convolution on a concrete 1×1 4-channel
image with every value 1/2. -/
theorem identity_convolution_witness :
    ∃ res, convolution probeImage identityKernel = .ok res ∧
      res.rows = probeImage.rows ∧ res.cols = probeImage.cols ∧
      res.chls = probeImage.chls ∧
      ∀ i j, i < probeImage.rows → j < probeImage.cols →
        (∀ k, k < 3 → res.data i j k = probeImage.data i j k) ∧
        res.data i j 3 = 1 :=
  identity_convolution_ok probeImage (le_refl 1) (le_refl 1) rfl
    (fun _ _ _ _ _ _ =>
      ⟨(by norm_num : (0 : ℚ) ≤ 1/2), (by norm_num : (1 : ℚ)/2 ≤ 1)⟩)

/-- Counterexample to C1 as stated for every image matrix: on a 3-channel
(RGB) image the identity convolution does not leave the image unchanged —
it throws a RangeError. -/
theorem identity_convolution_rgb_counterexample :
    convolution ⟨1, 1, 3, fun _ _ _ => 1/2⟩ identityKernel =
      .error .rangeError :=
  convolution_err_lowch (le_refl 1) (le_refl 1)
    (by norm_num : (1 : Nat) ≤ 3) (by norm_num : (3 : Nat) ≤ 3) rfl rfl
    (Or.inl rfl)

/-- Claim C2: on a nonempty image with 1 to 3 channels (the 3-channel RGB
and 1-channel grayscale cases included), convolution throws a RangeError —
the accumulator is force-filled at the out-of-range alpha index 3.  As
proved, this needs the kernel to get past the earlier checks: odd
dimensions, and a channel count of 1 or equal to the image's (otherwise a
different, generic convolution error is thrown first — see the
counterexample). -/
theorem claim2_convolution_low_channels {A w0 : Matrix} (hr : 1 ≤ A.rows)
    (hc : 1 ≤ A.cols) (hch1 : 1 ≤ A.chls) (hch3 : A.chls ≤ 3)
    (hodr : w0.rows % 2 = 1) (hodc : w0.cols % 2 = 1)
    (hwch : w0.chls = 1 ∨ w0.chls = A.chls) :
    convolution A w0 = .error .rangeError :=
  convolution_err_lowch hr hc hch1 hch3 hodr hodc hwch

/-- Witness for C2: a concrete 2×2 grayscale image convolved with the
identity kernel throws RangeError. -/
theorem claim2_convolution_low_channels_witness :
    convolution probeGray identityKernel = .error .rangeError :=
  claim2_convolution_low_channels
    (by norm_num : (1 : Nat) ≤ 2) (by norm_num : (1 : Nat) ≤ 2)
    (le_refl 1) (by norm_num : (1 : Nat) ≤ 3) rfl rfl (Or.inl rfl)

/-- Counterexample to C2 as stated for any kernel: with an even-sized
kernel, a 3-channel image fails with the generic convolution error (a plain
Error in the source), not a RangeError. -/
theorem claim2_even_kernel_counterexample :
    convolution ⟨1, 1, 3, fun _ _ _ => 0⟩ ⟨2, 2, 1, fun _ _ _ => 0⟩ =
      .error .convolutionError := rfl

/-- Claim C5: `extrude(n)` throws a RangeError when n ≤ 1 or when n is
less than the current channel count, and succeeds for n ≥ 2 with
n ≥ the current count, replicating the last channel's value into channels
at and above the old count and keeping the others.  As proved, the case
n = current count ≥ 2 succeeds (a no-op) — the claim's "every n less than
or equal to the current count fails" is wrong at equality (see the
counterexample). -/
theorem claim5_extrude_spec :
    (∀ (A : Matrix) (n : Nat), n ≤ 1 → A.extrude n = .error .rangeError) ∧
    (∀ (A : Matrix) (n : Nat), 2 ≤ n → n < A.chls →
      A.extrude n = .error .rangeError) ∧
    (∀ (A : Matrix) (n : Nat), 2 ≤ n → A.chls ≤ n →
      ∃ d', A.extrude n = .ok ⟨A.rows, A.cols, n, d'⟩ ∧
        (∀ i j, i < A.rows → j < A.cols → ∀ k,
          d' i j k = if A.chls ≤ k then A.data i j (A.chls - 1)
            else A.data i j k) ∧
        (∀ i j, A.rows ≤ i ∨ A.cols ≤ j → ∀ k, d' i j k = A.data i j k)) :=
  ⟨fun _ _ h => extrude_err_low h,
   fun _ _ h1 h2 => extrude_err_lt h1 h2,
   fun _ _ h1 h2 => extrude_ok h1 h2⟩

/-- Counterexample to C5 as stated: extruding a 2-channel matrix to n = 2
(equal to its current channel count) succeeds instead of failing. -/
theorem claim5_extrude_counterexample :
    isOkE ((⟨1, 1, 2, fun _ _ _ => 0⟩ : Matrix).extrude 2) = true := by
  obtain ⟨d', hok, _, _⟩ := extrude_ok (A := ⟨1, 1, 2, fun _ _ _ => 0⟩)
    (n := 2) (le_refl 2) (le_refl 2)
  rw [hok]
  rfl

/-- Claim C7: `dodge` in mode `divide` is a no-op (returns both operands
unchanged) when `B` is all-white, and otherwise produces exactly the same
result as mode `color`. -/
theorem claim7_dodge_divide :
    ∀ A B : Matrix,
      (B.isWhite = true → dodge A B modeDivide = .ok (A, B)) ∧
      (B.isWhite = false → dodge A B modeDivide = dodge A B modeColor) := by
  intro A B
  constructor
  · intro hw
    rw [dodge]
    rw [if_neg (by decide), if_neg (by decide), if_neg (by decide),
      dif_pos rfl, if_pos hw]
  · intro hw
    rw [dodge]
    rw [if_neg (by decide), if_neg (by decide), if_neg (by decide),
      dif_pos rfl, if_neg (by rw [hw]; exact Bool.false_ne_true)]

/-- Claim C8: for 4-channel operands of equal dimensions, `normal` sets
each color channel c of A at each pixel to
(Ac·Aa + Bc·Ba·(1−Aa)) / (Aa + Ba·(1−Aa)), in particular wherever the
resulting alpha denominator is nonzero. -/
theorem claim8_normal_formula {A B : Matrix}
    (hrB : B.rows = A.rows) (hcB : B.cols = A.cols)
    (hA : A.chls = 4) (hB : B.chls = 4) :
    ∃ d', normal A B = .ok ⟨A.rows, A.cols, A.chls, d'⟩ ∧
      ∀ i j k, i < A.rows → j < A.cols → k < 3 →
        A.data i j 3 + B.data i j 3 * (1 - A.data i j 3) ≠ 0 →
        d' i j k = (A.data i j k * A.data i j 3 +
            B.data i j k * B.data i j 3 * (1 - A.data i j 3)) /
          (A.data i j 3 + B.data i j 3 * (1 - A.data i j 3)) := by
  obtain ⟨d', h1, h2, _⟩ := normal_ok hrB hcB (by omega) (by omega)
  exact ⟨d', h1, fun i j k hi hj hk _ => h2 i j k hi hj hk⟩

/-- Witness for C8: the Porter-Duff formula on a concrete all-white 1×1
4-channel pair. -/
theorem claim8_normal_witness :
    ∃ d', normal probeWhite probeWhite =
        .ok ⟨probeWhite.rows, probeWhite.cols, probeWhite.chls, d'⟩ ∧
      ∀ i j k, i < probeWhite.rows → j < probeWhite.cols → k < 3 →
        probeWhite.data i j 3 +
          probeWhite.data i j 3 * (1 - probeWhite.data i j 3) ≠ 0 →
        d' i j k = (probeWhite.data i j k * probeWhite.data i j 3 +
            probeWhite.data i j k * probeWhite.data i j 3 *
              (1 - probeWhite.data i j 3)) /
          (probeWhite.data i j 3 +
            probeWhite.data i j 3 * (1 - probeWhite.data i j 3)) :=
  claim8_normal_formula rfl rfl rfl rfl

/-- Claim C9: for corners spanning a nonempty rectangle inside the source
extents, `crop` returns a fresh `|x2−x1| × |y2−y1|` matrix (at the source's
channel count) whose pixel (i, j) is the source pixel at the min-corner
offset; the source matrix itself is only read. -/
theorem claim9_crop_spec {A : Matrix} {x1 y1 x2 y2 : Nat}
    (hx : x1 ≠ x2) (hy : y1 ≠ y2)
    (hxA : max x1 x2 ≤ A.rows) (hyA : max y1 y2 ≤ A.cols) (hch : 1 ≤ A.chls) :
    ∃ C, crop A x1 y1 x2 y2 = .ok C ∧
      C.rows = max x1 x2 - min x1 x2 ∧ C.cols = max y1 y2 - min y1 y2 ∧
      C.chls = A.chls ∧
      ∀ i j, i < max x1 x2 - min x1 x2 → j < max y1 y2 - min y1 y2 →
        ∀ k, C.data i j k = A.data (i + min x1 x2) (j + min y1 y2) k := by
  obtain ⟨d', hok, hval⟩ := crop_ok (by omega) (by omega) hxA hyA hch
  exact ⟨_, hok, rfl, rfl, rfl, hval⟩

/-- Witness for C9: cropping the full extent of a concrete 2×2 grayscale
image. -/
theorem claim9_crop_witness :
    ∃ C, crop probeGray 0 0 2 2 = .ok C ∧
      C.rows = max 0 2 - min 0 2 ∧ C.cols = max 0 2 - min 0 2 ∧
      C.chls = probeGray.chls ∧
      ∀ i j, i < max 0 2 - min 0 2 → j < max 0 2 - min 0 2 →
        ∀ k, C.data i j k = probeGray.data (i + min 0 2) (j + min 0 2) k :=
  claim9_crop_spec (by decide) (by decide) (by decide) (by decide) (by decide)

/-- Claim C10: every blend operator writes only color channels 0..2 of its
base operand A — whenever addition, subtraction, multiply, divide,
difference, screen, overlay, darken, lighten, light, dodge, burn or normal
completes, the result's alpha channel (index 3) equals A's at every pixel
(normal computes a result alpha per pixel but never stores it). -/
theorem claim10_alpha_preserved :
    ∀ A B : Matrix,
      (∀ R, addition A B = .ok R → ∀ i j, R.data i j 3 = A.data i j 3) ∧
      (∀ R, subtraction A B = .ok R → ∀ i j, R.data i j 3 = A.data i j 3) ∧
      (∀ R, multiply A B = .ok R → ∀ i j, R.data i j 3 = A.data i j 3) ∧
      (∀ R, divide A B = .ok R → ∀ i j, R.data i j 3 = A.data i j 3) ∧
      (∀ R, difference A B = .ok R → ∀ i j, R.data i j 3 = A.data i j 3) ∧
      (∀ R, screen A B = .ok R → ∀ i j, R.data i j 3 = A.data i j 3) ∧
      (∀ R, overlay A B = .ok R → ∀ i j, R.data i j 3 = A.data i j 3) ∧
      (∀ R, darken A B = .ok R → ∀ i j, R.data i j 3 = A.data i j 3) ∧
      (∀ R, lighten A B = .ok R → ∀ i j, R.data i j 3 = A.data i j 3) ∧
      (∀ (sq : ℚ → ℚ) (ty : String) (R B' : Matrix), light sq A B ty = .ok (R, B') →
        ∀ i j, R.data i j 3 = A.data i j 3) ∧
      (∀ (ty : String) (R B' : Matrix), dodge A B ty = .ok (R, B') →
        ∀ i j, R.data i j 3 = A.data i j 3) ∧
      (∀ (ty : String) (R B' : Matrix), burn A B ty = .ok (R, B') →
        ∀ i j, R.data i j 3 = A.data i j 3) ∧
      (∀ R, normal A B = .ok R → ∀ i j, R.data i j 3 = A.data i j 3) := by
  intro A B
  refine ⟨?_, ?_, ?_, ?_, ?_, ?_, ?_, ?_, ?_, ?_, ?_, ?_, ?_⟩
  · exact fun R h i j => (pixelBlend_alphaSame h).2.2.2 i j
  · exact fun R h i j => (pixelBlend_alphaSame h).2.2.2 i j
  · exact fun R h i j => (pixelBlend_alphaSame h).2.2.2 i j
  · exact fun R h i j => (pixelBlend_alphaSame h).2.2.2 i j
  · exact fun R h i j => (pixelBlend_alphaSame h).2.2.2 i j
  · exact fun R h i j => (pixelBlend_alphaSame h).2.2.2 i j
  · exact fun R h i j => (pixelBlend_alphaSame h).2.2.2 i j
  · exact fun R h i j => (pixelBlend_alphaSame h).2.2.2 i j
  · exact fun R h i j => (pixelBlend_alphaSame h).2.2.2 i j
  · exact fun sq ty R B' h i j => (light_alphaSame h).2.2.2 i j
  · exact fun ty R B' h i j => (dodge_alphaSame h).2.2.2 i j
  · exact fun ty R B' h i j => (burn_alphaSame h).2.2.2 i j
  · exact fun R h i j => (normal_alphaSame h).2.2.2 i j

/-- Claim C6: for every odd N ≥ 1, `gaussianBlur(N)` returns the ordered
pair of a 1×N row kernel and an N×1 column kernel holding `pascal(N)`
divided by its sum (so each kernel's entries sum to 1), and `pascal`
produces the Pascal-triangle rows [1], [1,1] and [1,4,6,4,1] for
n = 1, 2, 5. -/
theorem claim6_gaussian_pascal :
    (∀ n : Nat, n % 2 = 1 → 1 ≤ n →
      ∃ row col, gaussianBlur n = .ok (row, col) ∧
        row.rows = 1 ∧ row.cols = n ∧ col.rows = n ∧ col.cols = 1 ∧
        (∀ j, j < n → row.data 0 j 0 = (pascal n).getD j 0 / (pascal n).sum) ∧
        (∀ i, i < n → col.data i 0 0 = (pascal n).getD i 0 / (pascal n).sum) ∧
        ((List.range n).map fun j => row.data 0 j 0).sum = 1 ∧
        ((List.range n).map fun i => col.data i 0 0).sum = 1) ∧
    pascal 1 = [1] ∧ pascal 2 = [1, 1] ∧ pascal 5 = [1, 4, 6, 4, 1] := by
  refine ⟨fun n _ h1 => gaussianBlur_ok h1, rfl, rfl, ?_⟩
  show pascalStep (pascalStep (pascalStep [1, 1])) = [1, 4, 6, 4, 1]
  simp only [pascalStep, List.zipWith_cons_cons, List.zipWith_nil_right,
    List.tail_cons, List.cons_append, List.nil_append]
  norm_num

/-- The truncation `parseInt` performs on a whole number is the number. -/
theorem jsTrunc_natCast (m : Nat) : jsTrunc (m : ℚ) = m := by
  unfold jsTrunc
  rw [Rat.num_natCast, Rat.den_natCast]
  exact Int.tdiv_one _

/-- Claim C4: `generate(rows, cols, chls, fill)` throws TypeError when any
dimension truncates to 0 under `parseInt`; throws RangeError when `rows` or
`cols` is negative or fractional (with nonzero truncation), or when
`chls > 1` is fractional; and for positive integer dimensions builds the
`rows × cols × chls` matrix constantly filled with `fill`.  As proved, a
negative integer `chls` (≤ 1, nonzero truncation) is never validated and
the build completes — the claim's "fails whenever any dimension is not a
positive integer" is wrong there (see the counterexample). -/
theorem claim4_generate_validation :
    (∀ rows cols chls v : ℚ,
      jsTrunc rows = 0 ∨ jsTrunc cols = 0 ∨ jsTrunc chls = 0 →
      generate rows cols chls v = .error .typeError) ∧
    (∀ rows cols chls v : ℚ,
      ¬(jsTrunc rows = 0 ∨ jsTrunc cols = 0 ∨ jsTrunc chls = 0) →
      ¬(0 ≤ rows ∧ rows.den = 1) →
      generate rows cols chls v = .error .rangeError) ∧
    (∀ rows cols chls v : ℚ,
      ¬(jsTrunc rows = 0 ∨ jsTrunc cols = 0 ∨ jsTrunc chls = 0) →
      (0 ≤ rows ∧ rows.den = 1) → ¬(0 ≤ cols ∧ cols.den = 1) →
      generate rows cols chls v = .error .rangeError) ∧
    (∀ rows cols chls v : ℚ,
      ¬(jsTrunc rows = 0 ∨ jsTrunc cols = 0 ∨ jsTrunc chls = 0) →
      (0 ≤ rows ∧ rows.den = 1) → (0 ≤ cols ∧ cols.den = 1) →
      (1 < chls ∧ ¬(0 ≤ chls ∧ chls.den = 1)) →
      generate rows cols chls v = .error .rangeError) ∧
    (∀ (r c ch : Nat) (v : ℚ), 1 ≤ r → 1 ≤ c → 1 ≤ ch →
      generate r c ch v = .ok ⟨r, c, ch, fun _ _ _ => v⟩) := by
  refine ⟨?_, ?_, ?_, ?_, ?_⟩
  · intro rows cols chls v h
    unfold generate
    rw [if_pos h]
  · intro rows cols chls v h0 h1
    unfold generate
    rw [if_neg h0, if_pos h1]
  · intro rows cols chls v h0 h1 h2
    unfold generate
    rw [if_neg h0, if_neg (not_not_intro h1), if_pos h2]
  · intro rows cols chls v h0 h1 h2 h3
    unfold generate
    rw [if_neg h0, if_neg (not_not_intro h1), if_neg (not_not_intro h2),
      if_pos h3]
  · intro r c ch v hr hc hch
    unfold generate
    have e1 : ¬(jsTrunc (r : ℚ) = 0 ∨ jsTrunc (c : ℚ) = 0 ∨
        jsTrunc (ch : ℚ) = 0) := by
      rw [jsTrunc_natCast, jsTrunc_natCast, jsTrunc_natCast]
      push_neg
      refine ⟨by omega, by omega, by omega⟩
    rw [if_neg e1,
      if_neg (not_not_intro ⟨Nat.cast_nonneg r, Rat.den_natCast r⟩),
      if_neg (not_not_intro ⟨Nat.cast_nonneg c, Rat.den_natCast c⟩),
      if_neg (fun h => h.2 ⟨Nat.cast_nonneg ch, Rat.den_natCast ch⟩)]
    rw [jsTrunc_natCast, jsTrunc_natCast, jsTrunc_natCast]

/-- Counterexample to C4 as stated: `generate(2, 2, -2, 5)` has a negative
channel dimension yet builds a (degenerate) matrix instead of failing. -/
theorem claim4_generate_counterexample :
    generate 2 2 (-2) 5 = .ok ⟨2, 2, -2, fun _ _ _ => 5⟩ := rfl

/-- Claim C3: `mmul` on single-channel operands.  As proved, the source
accumulates `this.get(k, j) * B.get(i, k)`, so the product entry (i, j) is
`Σ_k A[k][j]·B[i][k]` — the transpose-style accumulation, not the textbook
`Σ_k A[i][k]·B[k][j]` (see the counterexample); an operand with more than
one channel throws a plain Error, while a `cols ≠ rows` mismatch raises a
ReferenceError (the throw's message calls `getSize()`, which reads the
undefined bare identifier `chls`); and the prewitt factory kernel
accordingly computes to [[3,0,−3],[0,0,0],[−3,0,3]]. -/
theorem claim3_mmul_product :
    (∀ A B : Matrix, A.chls ≤ 1 → B.chls ≤ 1 → A.rows = A.cols →
      A.cols = B.rows → 1 ≤ B.cols → B.cols ≤ A.rows → 1 ≤ A.rows →
      ∃ d', A.mmul B = .ok ⟨A.rows, A.cols, A.chls, d'⟩ ∧
        ∀ i j, i < A.rows → j < A.cols →
          d' i j 0 =
            ((List.range B.cols).map fun k => A.data k j 0 * B.data i k 0).sum) ∧
    (∀ A B : Matrix, 1 < A.chls ∨ 1 < B.chls →
      A.mmul B = .error .genericError) ∧
    (∀ A B : Matrix, A.chls ≤ 1 → B.chls ≤ 1 → A.cols ≠ B.rows →
      A.mmul B = .error .referenceError) ∧
    (∃ dP, prewittKernel = .ok ⟨3, 3, 1, dP⟩ ∧
      ∀ i j, i < 3 → j < 3 →
        dP i j 0 = (load2 [[3, 0, -3], [0, 0, 0], [-3, 0, 3]]).data i j 0) := by
  refine ⟨?_, ?_, ?_, ?_⟩
  · intro A B h1 h2 h3 h4 h5 h6 h7
    exact mmul_ok h1 h2 h3 h4 h5 h6 h7
  · intro A B h
    unfold Matrix.mmul
    rw [if_pos h]
  · intro A B h1 h2 h3
    unfold Matrix.mmul
    rw [if_neg (by omega), if_pos h3]
  · obtain ⟨d', hok, hval⟩ := mmul_ok (A := prewittFactor1) (B := prewittFactor2)
      (le_refl 1) (le_refl 1) rfl rfl
      (by norm_num : (1 : Nat) ≤ 3) (by norm_num : (3 : Nat) ≤ 3)
      (by norm_num : (1 : Nat) ≤ 3)
    refine ⟨d', hok, ?_⟩
    intro i j hi hj
    have h := hval i j hi hj
    rw [h, show prewittFactor2.cols = 3 from rfl,
      show List.range 3 = [0, 1, 2] from rfl]
    simp only [List.map_cons, List.map_nil, List.sum_cons, List.sum_nil]
    interval_cases i <;> interval_cases j <;>
      norm_num [prewittFactor1, prewittFactor2, load2]

/-- Counterexample to C3's textbook product: the actual prewitt entry
(0, 0) is 3, while the standard dense product `Σ_k A[0][k]·B[k][0]` of the
two factors is 2. -/
theorem claim3_mmul_counterexample :
    okData prewittKernel 0 0 0 = some 3 ∧
      mmulStd prewittFactor1 prewittFactor2 0 0 = 2 := by
  constructor
  · obtain ⟨d', hok, hval⟩ := mmul_ok (A := prewittFactor1) (B := prewittFactor2)
      (le_refl 1) (le_refl 1) rfl rfl
      (by norm_num : (1 : Nat) ≤ 3) (by norm_num : (3 : Nat) ≤ 3)
      (by norm_num : (1 : Nat) ≤ 3)
    rw [show prewittKernel = prewittFactor1.mmul prewittFactor2 from rfl, hok]
    show some (d' 0 0 0) = some 3
    rw [hval 0 0 (by norm_num : (0 : Nat) < 3) (by norm_num : (0 : Nat) < 3)]
    rw [show prewittFactor2.cols = 3 from rfl,
      show List.range 3 = [0, 1, 2] from rfl]
    simp only [List.map_cons, List.map_nil, List.sum_cons, List.sum_nil]
    norm_num [prewittFactor1, prewittFactor2, load2]
  · unfold mmulStd
    rw [show prewittFactor1.cols = 3 from rfl,
      show List.range 3 = [0, 1, 2] from rfl]
    simp only [List.map_cons, List.map_nil, List.sum_cons, List.sum_nil]
    norm_num [prewittFactor1, prewittFactor2, load2]

end Jsip
